import Mathlib

/-!
# Verification of the depth-to-mesh reconstruction pipeline

This file gives a shallow embedding, over exact rationals, of the core
numeric pipeline of the 3dvenue repository:

* `src/engine/DepthEstimator.ts` — min-max normalization of the raw depth
  tensor (`estimateDepth`) and `holeFilling`;
* `src/engine/MeshGenerator.ts` — `generateDepthMesh` (with
  `removeStretchedFaces` and `cullEdgeMargin`) and `smoothMesh`;
* the multi-view aligner / point-cloud fuser
  (`alignMeshes` module: `computeDepthOverlap`, `extractGridFeatures`,
  `cellNCC`, `computeFeatureOffset`, `icpAlign`,
  `statisticalOutlierRemoval`, `mergePointClouds`).

Modelling conventions:

* JavaScript numbers (IEEE doubles / Float32Array entries) are modelled as
  exact rationals `ℚ`; `Math.floor` is modelled by `jsFloor` and
  `Math.round` by `jsRound` (floor of `x + 1/2`, which matches the
  half-up rounding of `Math.round`).
* `Math.sqrt` is a transcendental function with no rational realization,
  so every definition that uses it takes an explicit parameter
  `s : ℚ → ℚ` standing for `Math.sqrt`.  Theorems assume of `s` only
  facts that are true of the real square root (for example `s 0 = 0`, or
  `s (q * q) = q` for `0 ≤ q`), and witnesses instantiate `s` with
  `ratSqrt`, a computable function that agrees with the real square root
  on perfect squares of rationals (every concrete input evaluated in this
  file takes square roots of perfect squares only).
* `Math.atan2(y, x) / Math.PI` is likewise modelled by a parameter
  `a2p : ℚ → ℚ → ℚ`; the gradient angle of a grid cell is consumed by the
  source only in this π-normalized form.
* `NaN` has no rational counterpart; `Number.isNaN` is modelled as
  constantly false (the claims treated here concern NaN-free fields).
* Typed-array reads out of range (which yield `undefined`, then `?? 0`)
  are modelled with `List.getD _ _ 0`.
-/

section Spec2Proof

attribute [local semireducible] Rat.add Rat.sub Rat.mul Rat.inv Rat.ofScientific

set_option maxRecDepth 4000

/-- Model of JavaScript `Math.floor` on rationals: `⌊q⌋`, written as
integer division of numerator by denominator so the kernel can evaluate it. -/
def jsFloor (q : ℚ) : ℤ := q.num / (q.den : ℤ)

/-- Model of JavaScript `Math.round`: round half toward positive infinity. -/
def jsRound (q : ℚ) : ℤ := jsFloor (q + 1/2)

/-- Auxiliary upward search for `isqrt`: starting from `k`, keep incrementing
while the square of the successor still fits below `n`. -/
def isqrtUp (n : ℕ) : ℕ → ℕ → ℕ
  | 0, k => k
  | fuel + 1, k => if (k + 1) * (k + 1) ≤ n then isqrtUp n fuel (k + 1) else k

/-- Kernel-evaluable integer square root (greatest `k` with `k * k ≤ n`
for the inputs used here; exact on perfect squares, see `isqrt_square`). -/
def isqrt (n : ℕ) : ℕ := isqrtUp n n 0

/-- Computable stand-in for `Math.sqrt` on rationals: exact on perfect
squares of rationals (the only inputs on which concrete evaluations in this
file depend), and `0` on other inputs.  Theorems never assume anything about
the non-square branch. -/
def ratSqrt (q : ℚ) : ℚ :=
  let a := isqrt q.num.natAbs
  let b := isqrt q.den
  if 0 ≤ q.num ∧ a * a = q.num.natAbs ∧ b * b = q.den then (a : ℚ) / (b : ℚ) else 0

/-! ## Depth post-processor (`src/engine/DepthEstimator.ts`) -/

/-- The min-max normalization step of `estimateDepth`
(`DepthEstimator.ts`, the "Normalize to 0-1" block): scan for the minimum
and maximum, take `range = max - min || 1`, and map every sample through
`(d - min) / range`.  The scan starts from `Infinity` and `-Infinity`, which
over a non-empty list is the fold from its first element; an empty tensor
yields an empty output. -/
def normalizeDepth (depthData : List ℚ) : List ℚ :=
  match depthData with
  | [] => []
  | d :: ds =>
    let mn := ds.foldl (fun m x => if x < m then x else m) d
    let mx := ds.foldl (fun m x => if m < x then x else m) d
    let range := if mx - mn = 0 then 1 else mx - mn
    (d :: ds).map fun x => (x - mn) / range

/-- The 5×5 window offsets `(dy, dx)` for `dy, dx ∈ [-2, 2]`, in the
iteration order of the source loops. -/
def window5 : List (ℤ × ℤ) :=
  (List.range 5).flatMap fun dy => (List.range 5).map fun dx =>
    ((dy : ℤ) - 2, (dx : ℤ) - 2)

/-- The values of the in-bounds, non-zero (and, in the source, non-NaN)
neighbors of pixel `(x, y)` inside the 5×5 window, read from the ORIGINAL
`data` buffer exactly as `holeFilling` does. -/
def holeNeighborVals (data : List ℚ) (w h : ℕ) (x y : ℤ) : List ℚ :=
  window5.filterMap fun d =>
    let ny := y + d.1
    let nx := x + d.2
    if 0 ≤ ny ∧ ny < (h : ℤ) ∧ 0 ≤ nx ∧ nx < (w : ℤ) then
      let nv := data.getD (ny * w + nx).toNat 0
      if nv ≠ 0 then some nv else none
    else none

/-- `holeFilling` of `DepthEstimator.ts`: every zero (or NaN) sample is
replaced by the mean of the non-zero neighbors in its 5×5 window (0 if there
are none); other samples are copied through.  The source copies `data` into
`result` and writes each visited index at most once before reading it, so
it is a pure function of `data`. -/
def holeFilling (data : List ℚ) (w h : ℕ) : List ℚ :=
  (List.range data.length).map fun idx =>
    let val := data.getD idx 0
    if idx < w * h then
      if val ≠ 0 then val
      else
        let vals := holeNeighborVals data w h ((idx % w : ℕ) : ℤ) ((idx / w : ℕ) : ℤ)
        if 0 < vals.length then vals.sum / (vals.length : ℚ) else 0
    else val

/-! ## Mesh synthesizer (`src/engine/MeshGenerator.ts`)

The geometry record keeps the data the claims are about: the vertex
position buffer, the triangle index buffer (stored as triangles, three
flat entries each), the vertex color buffer, and the construction-time
plane dimensions (`geometry.parameters.width/height` in three.js).
Normals (plain or `enhancedNormals`) are recomputed derived data touched
by no claim and are not modelled. -/

structure PlaneGeo where
  positions : List (ℚ × ℚ × ℚ)
  triangles : List (ℕ × ℕ × ℕ)
  colors : List (ℚ × ℚ × ℚ)
  paramWidth : ℚ
  paramHeight : ℚ

/-- Vertex `i` of a three.js `PlaneGeometry(width, height, gridX, gridY)`:
the source library lays the `(gridY+1) × (gridX+1)` grid out row-major with
`x = ix·(width/gridX) − width/2` and pushes `−y` for
`y = iy·(height/gridY) − height/2` (three.js `PlaneGeometry`, the external
constructor `generateDepthMesh` starts from). -/
def planeVertex (width height : ℚ) (gridX gridY : ℕ) (i : ℕ) : ℚ × ℚ × ℚ :=
  let ix := i % (gridX + 1)
  let iy := i / (gridX + 1)
  ((ix : ℚ) * (width / (gridX : ℚ)) - width / 2,
   -((iy : ℚ) * (height / (gridY : ℚ)) - height / 2),
   0)

/-- The `(gridY+1)·(gridX+1)` vertices of a three.js plane geometry. -/
def planePositions (width height : ℚ) (gridX gridY : ℕ) : List (ℚ × ℚ × ℚ) :=
  (List.range ((gridY + 1) * (gridX + 1))).map (planeVertex width height gridX gridY)

/-- The index buffer of a three.js plane geometry: per grid cell the two
triangles `(a, b, d)` and `(b, c, d)`. -/
def planeTriangles (gridX gridY : ℕ) : List (ℕ × ℕ × ℕ) :=
  (List.range gridY).flatMap fun iy =>
    (List.range gridX).flatMap fun ix =>
      let a := ix + (gridX + 1) * iy
      let b := ix + (gridX + 1) * (iy + 1)
      let c := (ix + 1) + (gridX + 1) * (iy + 1)
      let d := (ix + 1) + (gridX + 1) * iy
      [(a, b, d), (b, c, d)]

/-- The per-vertex loop of `generateDepthMesh`: recover `(u, v)` from the
vertex position, do a nearest-pixel depth lookup (`depthMap[idx] ?? 0`),
set `z = depth * depthScale`, and, when perspective is enabled, scale X/Y
by `1 + z · perspectiveFactor` where
`perspectiveFactor = tan(fov·π/180/2) · 0.5`; `tanHalfFov` is the caller's
model of `Math.tan((effectiveFov · π) / 180 / 2)`. -/
def vertexZ (depthMap : List ℚ) (width height : ℕ) (depthScale planeW planeH : ℚ)
    (perspective : Bool) (tanHalfFov : ℚ) (p : ℚ × ℚ × ℚ) : ℚ × ℚ × ℚ :=
  let u := p.1 / planeW + 1/2
  let v := 1 - (p.2.1 / planeH + 1/2)
  let px := jsFloor (u * ((width : ℚ) - 1))
  let py := jsFloor (v * ((height : ℚ) - 1))
  let idx := py * (width : ℤ) + px
  let depth := if 0 ≤ idx then depthMap.getD idx.toNat 0 else 0
  let z := depth * depthScale
  if perspective then
    let perspectiveFactor := tanHalfFov * (1/2)
    let scale := 1 + z * perspectiveFactor
    (p.1 * scale, p.2.1 * scale, z)
  else
    (p.1, p.2.1, z)

/-- The keep-condition of `removeStretchedFaces`: all three pairwise Z
differences of the triangle are within the threshold. -/
def faceNotStretched (positions : List (ℚ × ℚ × ℚ)) (threshold : ℚ) (t : ℕ × ℕ × ℕ) : Prop :=
  let z1 := (positions.getD t.1 (0, 0, 0)).2.2
  let z2 := (positions.getD t.2.1 (0, 0, 0)).2.2
  let z3 := (positions.getD t.2.2 (0, 0, 0)).2.2
  |z1 - z2| ≤ threshold ∧ |z2 - z3| ≤ threshold ∧ |z3 - z1| ≤ threshold

instance (positions : List (ℚ × ℚ × ℚ)) (threshold : ℚ) (t : ℕ × ℕ × ℕ) :
    Decidable (faceNotStretched positions threshold t) := by
  unfold faceNotStretched; infer_instance

/-- `removeStretchedFaces`: rebuild the index buffer keeping only the
triangles whose Z-spans are all below the threshold. -/
def removeStretchedFaces (positions : List (ℚ × ℚ × ℚ)) (threshold : ℚ)
    (tris : List (ℕ × ℕ × ℕ)) : List (ℕ × ℕ × ℕ) :=
  tris.filter fun t => decide (faceNotStretched positions threshold t)

/-- The `isInMargin` test of `cullEdgeMargin`, on the CURRENT vertex
positions (after the Z/perspective pass). -/
def isInMargin (positions : List (ℚ × ℚ × ℚ)) (planeW planeH margin : ℚ) (i : ℕ) : Prop :=
  let u := (positions.getD i (0, 0, 0)).1 / planeW + 1/2
  let v := 1 - ((positions.getD i (0, 0, 0)).2.1 / planeH + 1/2)
  u < margin ∨ 1 - margin < u ∨ v < margin ∨ 1 - margin < v

instance (positions : List (ℚ × ℚ × ℚ)) (planeW planeH margin : ℚ) (i : ℕ) :
    Decidable (isInMargin positions planeW planeH margin i) := by
  unfold isInMargin; infer_instance

/-- `cullEdgeMargin`: drop every triangle with ANY vertex in the outer
margin band of the plane. -/
def cullEdgeMargin (positions : List (ℚ × ℚ × ℚ)) (planeW planeH margin : ℚ)
    (tris : List (ℕ × ℕ × ℕ)) : List (ℕ × ℕ × ℕ) :=
  tris.filter fun t =>
    decide (¬ isInMargin positions planeW planeH margin t.1 ∧
            ¬ isInMargin positions planeW planeH margin t.2.1 ∧
            ¬ isInMargin positions planeW planeH margin t.2.2)

/-- The statistical-outlier clamp of `generateDepthMesh`: mean and standard
deviation of the positive Z values (`count || 1` guards the divisions), and
every Z above `mean + 2.5·stdDev` is clamped down to that threshold.
`s` models `Math.sqrt`. -/
def outlierClamp (s : ℚ → ℚ) (positions : List (ℚ × ℚ × ℚ)) : List (ℚ × ℚ × ℚ) :=
  let count := positions.foldl (fun acc p => if 0 < p.2.2 then acc + 1 else acc) (0 : ℕ)
  let zsum := positions.foldl (fun acc p => if 0 < p.2.2 then acc + p.2.2 else acc) (0 : ℚ)
  let cdiv : ℚ := if count = 0 then 1 else (count : ℚ)
  let mean := zsum / cdiv
  let variance := positions.foldl
    (fun acc p => if 0 < p.2.2 then acc + (p.2.2 - mean) ^ 2 else acc) (0 : ℚ)
  let stdDev := s (variance / cdiv)
  let threshold := mean + 5/2 * stdDev
  positions.map fun p => if threshold < p.2.2 then (p.1, p.2.1, threshold) else p

/-- The source's `lerp` helper (with clamped interpolation parameter). -/
def lerp (a b t : ℚ) : ℚ := a + (b - a) * max 0 (min 1 t)

/-- The per-vertex depth-keyed colors written at the end of
`generateDepthMesh`. -/
def depthColors (depthScale : ℚ) (positions : List (ℚ × ℚ × ℚ)) : List (ℚ × ℚ × ℚ) :=
  positions.map fun p =>
    let t := p.2.2 / depthScale
    (lerp (1/10) 0 t, lerp (6/10) (9/10) t, lerp (9/10) (3/10) t)

/-- `generateDepthMesh` of `MeshGenerator.ts`.  `s` models `Math.sqrt` and
`tanD` models `fov ↦ Math.tan((fov · π) / 180 / 2)`.  Optional segment
counts default to `min dimension 800`; the plane spans `aspect·4 × 4`.
The geometry is always indexed, so both culling passes run (stretch removal
behind its flag, edge-margin culling unconditionally with margin 3%);
the outlier clamp runs behind its flag; colors are derived from final Z. -/
def generateDepthMesh (s tanD : ℚ → ℚ) (depthMap : List ℚ) (width height : ℕ)
    (depthScale : ℚ) (segmentsX segmentsY : Option ℕ)
    (outlierRemoval perspective stretchRemoval : Bool)
    (stretchThreshold fov : ℚ) : PlaneGeo :=
  let maxSegments : ℕ := 800
  let aspect := (width : ℚ) / (height : ℚ)
  let segsX := segmentsX.getD (min width maxSegments)
  let segsY := segmentsY.getD (min height maxSegments)
  let planeWidth := aspect * 4
  let planeHeight : ℚ := 4
  let pos0 := planePositions planeWidth planeHeight segsX segsY
  let pos1 := pos0.map
    (vertexZ depthMap width height depthScale planeWidth planeHeight perspective (tanD fov))
  let tris0 := planeTriangles segsX segsY
  let tris1 := if stretchRemoval then removeStretchedFaces pos1 stretchThreshold tris0 else tris0
  let tris2 := cullEdgeMargin pos1 planeWidth planeHeight (3/100) tris1
  let pos2 := if outlierRemoval then outlierClamp s pos1 else pos1
  { positions := pos2
    triangles := tris2
    colors := depthColors depthScale pos2
    paramWidth := planeWidth
    paramHeight := planeHeight }

/-- The adjacency set of vertex `i` built by `smoothMesh` from the index
buffer: for every triangle containing `i`, the other two slots are added.
(The source folds all three slot cases per triangle into one `Set`; when a
triangle repeats an index the union below coincides with the source's
slot-by-slot insertion.) -/
def nbrStep (i : ℕ) (acc : Finset ℕ) (t : ℕ × ℕ × ℕ) : Finset ℕ :=
  if i = t.1 then acc ∪ {t.2.1, t.2.2}
  else if i = t.2.1 then acc ∪ {t.1, t.2.2}
  else if i = t.2.2 then acc ∪ {t.1, t.2.1}
  else acc

def vertexNeighbors (tris : List (ℕ × ℕ × ℕ)) (i : ℕ) : Finset ℕ :=
  tris.foldl (nbrStep i) ∅

/-- One smoothing pass of `smoothMesh` with factor `factor` (λ or μ):
every vertex Z moves toward (or away from) the average of its neighbors'
Z values; vertices with no neighbors are left unchanged. -/
def taubinPass (factor : ℚ) (tris : List (ℕ × ℕ × ℕ)) (zs : List ℚ) : List ℚ :=
  (List.range zs.length).map fun i =>
    let nbrs := vertexNeighbors tris i
    let z := zs.getD i 0
    if nbrs.card = 0 then z
    else
      let avgZ := (nbrs.sum fun n => zs.getD n 0) / (nbrs.card : ℚ)
      z + factor * (avgZ - z)

/-- The iteration loop of `smoothMesh`: λ pass (0.5) then μ pass (−0.53),
`iterations` times. -/
def taubinIterate (tris : List (ℕ × ℕ × ℕ)) : ℕ → List ℚ → List ℚ
  | 0, zs => zs
  | k + 1, zs => taubinIterate tris k (taubinPass (-53/100) tris (taubinPass (1/2) tris zs))

/-- `smoothMesh` of `MeshGenerator.ts`: Taubin smoothing of the Z channel
only; X/Y, colors, the index buffer and the plane parameters are untouched
(normals are recomputed — derived data not modelled). -/
def smoothMesh (g : PlaneGeo) (iterations : ℕ) : PlaneGeo :=
  let zs := g.positions.map fun p => p.2.2
  let zsFinal := taubinIterate g.triangles iterations zs
  { g with positions := (List.range g.positions.length).map fun i =>
      let p := g.positions.getD i (0, 0, 0)
      (p.1, p.2.1, zsFinal.getD i 0) }

/-! ## Multi-view aligner and point-cloud fuser (`alignMeshes` module) -/

/-- The per-photo mesh record handed between the aligner and the fuser
(the TS `ProcessedMesh`): the geometry's position and color attributes are
inlined as lists (`colors = none` models a geometry without a color
attribute), next to the photo id, texture reference and source depth
field. -/
structure ProcessedMesh where
  photoId : String
  positions : List (ℚ × ℚ × ℚ)
  colors : Option (List (ℚ × ℚ × ℚ))
  textureUrl : String
  depthMap : List ℚ
  width : ℕ
  height : ℕ
  deriving DecidableEq, Inhabited

/-- The histogram bin of a depth sample in `computeDepthOverlap`:
`min(floor(d · 32), 31)`.  (A negative bin — possible only for negative
samples — indexes nothing in the typed array, so such samples are counted
by no bin, which the counting formulation below reproduces.) -/
def depthBin (d : ℚ) : ℤ := min (jsFloor (d * 32)) 31

/-- Histogram count of bin `i` for a depth field. -/
def depthHistogram (depth : List ℚ) (i : ℕ) : ℚ :=
  (depth.countP fun d => decide (depthBin d = (i : ℤ)) : ℕ)

/-- `computeDepthOverlap`: 32-bin histograms of both fields, normalized by
the sample counts (`length || 1`), combined by the Bhattacharyya
coefficient `Σ sqrt(pᵢ·qᵢ)`.  `s` models `Math.sqrt`. -/
def computeDepthOverlap (s : ℚ → ℚ) (depthA depthB : List ℚ) : ℚ :=
  let sumA : ℚ := if depthA.length = 0 then 1 else (depthA.length : ℚ)
  let sumB : ℚ := if depthB.length = 0 then 1 else (depthB.length : ℚ)
  ((List.range 32).map fun i =>
    s ((depthHistogram depthA i / sumA) * (depthHistogram depthB i / sumB))).sum

/-- A cell descriptor of `extractGridFeatures`.  `gradientDir` stores the
π-normalized dominant gradient angle `atan2(gy, gx) / π` (the only form in
which the angle is consumed, by `cellNCC`). -/
structure CellDescriptor where
  meanDepth : ℚ
  variance : ℚ
  gradientDir : ℚ
  row : ℕ
  col : ℕ
  deriving DecidableEq

/-- `extractGridFeatures`: split the depth map into an 8×8 grid of
`⌊width/8⌋ × ⌊height/8⌋` cells; per cell compute mean depth, variance
(both `0` for an empty cell) and the dominant gradient direction from
central differences over the cell interior.  `a2p` models
`(gy, gx) ↦ Math.atan2(gy, gx) / Math.PI`. -/
def extractGridFeatures (a2p : ℚ → ℚ → ℚ) (depthMap : List ℚ)
    (width height : ℕ) : List CellDescriptor :=
  let cellW := width / 8
  let cellH := height / 8
  (List.range 8).flatMap fun row =>
    (List.range 8).map fun col =>
      let x0 := col * cellW
      let y0 := row * cellH
      let ys := ((List.range cellH).map (y0 + ·)).filter fun y => decide (y < height)
      let xs := ((List.range cellW).map (x0 + ·)).filter fun x => decide (x < width)
      let cellIdx := ys.flatMap fun y => xs.map fun x => y * width + x
      let count := cellIdx.length
      let sum := (cellIdx.map fun idx => depthMap.getD idx 0).sum
      let meanDepth := if 0 < count then sum / (count : ℚ) else 0
      let varSum := (cellIdx.map fun idx => (depthMap.getD idx 0 - meanDepth) ^ 2).sum
      let variance := if 0 < count then varSum / (count : ℚ) else 0
      let ys2 := ((List.range cellH).map (y0 + ·)).filter fun y =>
        decide (y0 + 1 ≤ y ∧ y + 1 < y0 + cellH ∧ y + 1 < height)
      let xs2 := ((List.range cellW).map (x0 + ·)).filter fun x =>
        decide (x0 + 1 ≤ x ∧ x + 1 < x0 + cellW ∧ x + 1 < width)
      let gx := (ys2.flatMap fun y => xs2.map fun x =>
        depthMap.getD (y * width + x + 1) 0 - depthMap.getD (y * width + x - 1) 0).sum
      let gy := (ys2.flatMap fun y => xs2.map fun x =>
        depthMap.getD ((y + 1) * width + x) 0 - depthMap.getD ((y - 1) * width + x) 0).sum
      let gradientDir := a2p gy gx
      { meanDepth := meanDepth, variance := variance, gradientDir := gradientDir,
        row := row, col := col }

/-- `cellNCC`: cosine similarity of the two 3-entry feature vectors
`[meanDepth, sqrt(variance), gradientDir/π]` (0 when the denominator is not
positive).  `s` models `Math.sqrt`; the third feature is stored already
π-normalized in the descriptor. -/
def cellNCC (s : ℚ → ℚ) (a b : CellDescriptor) : ℚ :=
  let fa := (a.meanDepth, s a.variance, a.gradientDir)
  let fb := (b.meanDepth, s b.variance, b.gradientDir)
  let dot := fa.1 * fb.1 + fa.2.1 * fb.2.1 + fa.2.2 * fb.2.2
  let magA := fa.1 * fa.1 + fa.2.1 * fa.2.1 + fa.2.2 * fa.2.2
  let magB := fb.1 * fb.1 + fb.2.1 * fb.2.1 + fb.2.2 * fb.2.2
  let denom := s magA * s magB
  if 0 < denom then dot / denom else 0

/-- The best-match scan of `computeFeatureOffset`: running maximum of the
scores against every cell of view B (`bestScore` starts at `-Infinity`, so
the first cell always replaces the empty accumulator; later cells replace
it only on a strict improvement). -/
def cellScanStep (s : ℚ → ℚ) (a : CellDescriptor)
    (best : Option (ℚ × CellDescriptor)) (b : CellDescriptor) :
    Option (ℚ × CellDescriptor) :=
  let score := cellNCC s a b
  match best with
  | none => some (score, b)
  | some (bs, bb) => if bs < score then some (score, b) else some (bs, bb)

def bestCellMatch (s : ℚ → ℚ) (a : CellDescriptor) (featB : List CellDescriptor) :
    Option (ℚ × CellDescriptor) :=
  featB.foldl (cellScanStep s a) none

/-- Per-cell accumulation of `computeFeatureOffset`: take the best-matching
cell of view B; accept it only above score 0.8, accumulating the
(column, row, meanDepth) deltas and the match count. -/
def offsetStep (s : ℚ → ℚ) (featB : List CellDescriptor)
    (acc : ℚ × ℚ × ℚ × ℕ) (a : CellDescriptor) : ℚ × ℚ × ℚ × ℕ :=
  match bestCellMatch s a featB with
  | some (bestScore, bestB) =>
    if 8/10 < bestScore then
      (acc.1 + ((bestB.col : ℚ) - (a.col : ℚ)),
       acc.2.1 + ((bestB.row : ℚ) - (a.row : ℚ)),
       acc.2.2.1 + (bestB.meanDepth - a.meanDepth),
       acc.2.2.2 + 1)
    else acc
  | none => acc

/-- `computeFeatureOffset`: for every cell of A take its best-matching cell
of B; accept the match only above score 0.8; average the accepted
(column, row, meanDepth) deltas and scale to world units (0.5 per grid cell
in X/Y, 0.5 in Z); zero matches yield the zero offset. -/
def computeFeatureOffset (s : ℚ → ℚ) (a2p : ℚ → ℚ → ℚ)
    (depthA : List ℚ) (widthA heightA : ℕ)
    (depthB : List ℚ) (widthB heightB : ℕ) : ℚ × ℚ × ℚ :=
  let featA := extractGridFeatures a2p depthA widthA heightA
  let featB := extractGridFeatures a2p depthB widthB heightB
  let acc := featA.foldl (offsetStep s featB) (0, 0, 0, 0)
  let matchCount := acc.2.2.2
  if matchCount = 0 then (0, 0, 0)
  else
    let cellWorldSize : ℚ := 1/2
    ((acc.1 / (matchCount : ℚ)) * cellWorldSize,
     (acc.2.1 / (matchCount : ℚ)) * cellWorldSize,
     (acc.2.2.1 / (matchCount : ℚ)) * (1/2))

/-- Spatial-hash key of a point at grid resolution `gridRes`
(`Math.round(coord / gridRes)` per axis). -/
def pointKey (gridRes : ℚ) (p : ℚ × ℚ × ℚ) : ℤ × ℤ × ℤ :=
  (jsRound (p.1 / gridRes), jsRound (p.2.1 / gridRes), jsRound (p.2.2 / gridRes))

/-- Insertion into the spatial hash (a JS `Map` from key to index list):
append to an existing cell, or append a fresh cell at the end. -/
def gridInsert (g : List ((ℤ × ℤ × ℤ) × List ℕ)) (k : ℤ × ℤ × ℤ) (i : ℕ) :
    List ((ℤ × ℤ × ℤ) × List ℕ) :=
  match g with
  | [] => [(k, [i])]
  | (k0, cell) :: rest =>
    if k0 = k then (k0, cell ++ [i]) :: rest else (k0, cell) :: gridInsert rest k i

/-- The spatial hash over a point list: every index inserted under its key. -/
def buildGrid (gridRes : ℚ) (pts : List (ℚ × ℚ × ℚ)) : List ((ℤ × ℤ × ℤ) × List ℕ) :=
  (List.range pts.length).foldl
    (fun g i => gridInsert g (pointKey gridRes (pts.getD i (0, 0, 0))) i) []

/-- Cell lookup in the spatial hash (empty list for a missing key). -/
def gridLookup (g : List ((ℤ × ℤ × ℤ) × List ℕ)) (k : ℤ × ℤ × ℤ) : List ℕ :=
  match g with
  | [] => []
  | (k0, cell) :: rest => if k0 = k then cell else gridLookup rest k

/-- The 3×3×3 neighborhood offsets, in the `dx`/`dy`/`dz` loop order of the
source. -/
def neighborOffsets : List (ℤ × ℤ × ℤ) :=
  ([-1, 0, 1] : List ℤ).flatMap fun dx =>
    ([-1, 0, 1] : List ℤ).flatMap fun dy =>
      ([-1, 0, 1] : List ℤ).map fun dz => (dx, dy, dz)

/-- All candidate target indices gathered from the 27 cells around `k`. -/
def icpCandidates (grid : List ((ℤ × ℤ × ℤ) × List ℕ)) (k : ℤ × ℤ × ℤ) : List ℕ :=
  neighborOffsets.flatMap fun d =>
    gridLookup grid (k.1 + d.1, k.2.1 + d.2.1, k.2.2 + d.2.2)

/-- Squared Euclidean distance between two points (the `d` of the source's
nearest-neighbor scan). -/
def distSq (p q : ℚ × ℚ × ℚ) : ℚ :=
  (p.1 - q.1) ^ 2 + (p.2.1 - q.2.1) ^ 2 + (p.2.2 - q.2.2) ^ 2

/-- The running-minimum scan for the nearest candidate (`bestDist` starts at
`Infinity`, so the first candidate always enters; later candidates replace
it only on a strict improvement). -/
def nearestStep (tgt : List (ℚ × ℚ × ℚ)) (p : ℚ × ℚ × ℚ)
    (best : Option (ℚ × ℕ)) (ti : ℕ) : Option (ℚ × ℕ) :=
  let d := distSq p (tgt.getD ti (0, 0, 0))
  match best with
  | none => some (d, ti)
  | some (bd, bi) => if d < bd then some (d, ti) else some (bd, bi)

def bestMatch (tgt : List (ℚ × ℚ × ℚ)) (p : ℚ × ℚ × ℚ) (cands : List ℕ) :
    Option (ℚ × ℕ) :=
  cands.foldl (nearestStep tgt p) none

/-- One `icpAlign` iteration's accepted correspondences: for every
subsampled source index (step multiples), the nearest target point from the
3×3×3 cell neighborhood, accepted when its squared distance is below 1. -/
def icpCorrespondences (tgt : List (ℚ × ℚ × ℚ)) (grid : List ((ℤ × ℤ × ℤ) × List ℕ))
    (step : ℕ) (src : List (ℚ × ℚ × ℚ)) : List ((ℚ × ℚ × ℚ) × (ℚ × ℚ × ℚ)) :=
  ((List.range src.length).filter fun i => decide (i % step = 0)).filterMap fun i =>
    let p := src.getD i (0, 0, 0)
    match bestMatch tgt p (icpCandidates grid (pointKey (1/10) p)) with
    | some (bd, bi) => if bd < 1 then some (p, tgt.getD bi (0, 0, 0)) else none
    | none => none

/-- The iteration loop of `icpAlign`: fewer than 3 correspondences break
the loop; otherwise the centroid delta of the matched pairs translates the
working source set and accumulates, and the loop also stops when the
translation magnitude drops below the tolerance (the source compares
`Math.sqrt(dx²+dy²+dz²) < tolerance`; `s` models `Math.sqrt`). -/
def icpLoop (s : ℚ → ℚ) (tgt : List (ℚ × ℚ × ℚ)) (grid : List ((ℤ × ℤ × ℤ) × List ℕ))
    (step : ℕ) (tolerance : ℚ) :
    ℕ → List (ℚ × ℚ × ℚ) → ℚ × ℚ × ℚ → ℚ × ℚ × ℚ
  | 0, _, cum => cum
  | fuel + 1, src, cum =>
    let corr := icpCorrespondences tgt grid step src
    if corr.length < 3 then cum
    else
      let mc : ℚ := (corr.length : ℚ)
      let srcCx := (corr.map fun c => c.1.1).sum / mc
      let srcCy := (corr.map fun c => c.1.2.1).sum / mc
      let srcCz := (corr.map fun c => c.1.2.2).sum / mc
      let tgtCx := (corr.map fun c => c.2.1).sum / mc
      let tgtCy := (corr.map fun c => c.2.2.1).sum / mc
      let tgtCz := (corr.map fun c => c.2.2.2).sum / mc
      let dx := tgtCx - srcCx
      let dy := tgtCy - srcCy
      let dz := tgtCz - srcCz
      let src2 := src.map fun p => (p.1 + dx, p.2.1 + dy, p.2.2 + dz)
      let cum2 := (cum.1 + dx, cum.2.1 + dy, cum.2.2 + dz)
      let change := s (dx * dx + dy * dy + dz * dz)
      if change < tolerance then cum2
      else icpLoop s tgt grid step tolerance fuel src2 cum2

/-- `icpAlign`: translation-only grid-accelerated ICP.  Returns the
accumulated translation (the translation component of the `Matrix4` the
source builds with `makeTranslation`).  The flat `Float32Array` point
buffers of the source are modelled as lists of coordinate triples.
`s` models `Math.sqrt`. -/
def icpAlign (s : ℚ → ℚ) (sourcePoints targetPoints : List (ℚ × ℚ × ℚ))
    (maxIterations : ℕ) (tolerance : ℚ) : ℚ × ℚ × ℚ :=
  if sourcePoints.length = 0 ∨ targetPoints.length = 0 then (0, 0, 0)
  else
    let grid := buildGrid (1/10) targetPoints
    let step := max 1 (sourcePoints.length / 2000)
    icpLoop s targetPoints grid step tolerance maxIterations sourcePoints (0, 0, 0)

/-- In-place translation of a mesh's geometry
(`geometry.applyMatrix4(makeTranslation d)`): only the vertex positions
move; every other field of the record is preserved. -/
def translateMesh (d : ℚ × ℚ × ℚ) (m : ProcessedMesh) : ProcessedMesh :=
  { m with positions := m.positions.map fun p =>
      (p.1 + d.1, p.2.1 + d.2.1, p.2.2 + d.2.2) }

/-- The ICP pre-registration pass of `mergePointClouds`: each mesh after
the first is translated, IN PLACE, by `icpAlign` of its positions against
the (already translated) previous mesh's positions. -/
def icpGo (s : ℚ → ℚ) (prev : ProcessedMesh) : List ProcessedMesh → List ProcessedMesh
  | [] => []
  | m :: rest =>
    let d := icpAlign s m.positions prev.positions 20 (1/1000)
    let m2 := translateMesh d m
    m2 :: icpGo s m2 rest

/-- The state of the caller's mesh array after the ICP loop of
`mergePointClouds`: the first mesh is untouched; each later mesh has been
translated in place. -/
def icpPass (s : ℚ → ℚ) : List ProcessedMesh → List ProcessedMesh
  | [] => []
  | m0 :: rest => m0 :: icpGo s m0 rest

/-- The vertex collection loop of `mergePointClouds`: all positions with
their colors (the fallback color (0.5, 0.8, 1.0) when the geometry has no
color attribute), in mesh order, read BEFORE the ICP pass. -/
def collectPoints (meshes : List ProcessedMesh) : List ((ℚ × ℚ × ℚ) × (ℚ × ℚ × ℚ)) :=
  meshes.flatMap fun m =>
    match m.colors with
    | some cs => m.positions.zip cs
    | none => m.positions.map fun p => (p, (1/2, 4/5, 1))

/-- Accumulate a colored point into the voxel map (a JS `Map` in insertion
order): sum positions, colors and count per voxel key. -/
def voxelInsert (vm : List ((ℤ × ℤ × ℤ) × ((ℚ × ℚ × ℚ) × (ℚ × ℚ × ℚ) × ℕ)))
    (k : ℤ × ℤ × ℤ) (pc : (ℚ × ℚ × ℚ) × (ℚ × ℚ × ℚ)) :
    List ((ℤ × ℤ × ℤ) × ((ℚ × ℚ × ℚ) × (ℚ × ℚ × ℚ) × ℕ)) :=
  match vm with
  | [] => [(k, (pc.1, pc.2, 1))]
  | (k0, (ps, cs, n)) :: rest =>
    if k0 = k then
      (k0, ((ps.1 + pc.1.1, ps.2.1 + pc.1.2.1, ps.2.2 + pc.1.2.2),
            (cs.1 + pc.2.1, cs.2.1 + pc.2.2.1, cs.2.2 + pc.2.2.2), n + 1)) :: rest
    else (k0, (ps, cs, n)) :: voxelInsert rest k pc

/-- The voxel-grid downsampling of `mergePointClouds`: adaptive voxel size
by total point count, accumulation per rounded voxel key, then averaging in
map insertion order. -/
def voxelDownsample (pts : List ((ℚ × ℚ × ℚ) × (ℚ × ℚ × ℚ))) :
    List ((ℚ × ℚ × ℚ) × (ℚ × ℚ × ℚ)) :=
  let totalPoints := pts.length
  let voxelSize : ℚ := if 500000 < totalPoints then 1/10
    else if 100000 < totalPoints then 7/100 else 1/20
  let vm := pts.foldl (fun vm pc => voxelInsert vm (pointKey voxelSize pc.1) pc) []
  vm.map fun kv =>
    let n : ℚ := (kv.2.2.2 : ℚ)
    ((kv.2.1.1 / n, kv.2.1.2.1 / n, kv.2.1.2.2 / n),
     (kv.2.2.1.1 / n, kv.2.2.1.2.1 / n, kv.2.2.1.2.2 / n))

/-- `statisticalOutlierRemoval`: mean distance to up to `k` nearest
neighbors (via a 0.15-unit spatial hash, 3×3×3 cell search, subsampled by
`step` with skipped entries inheriting the last computed value), then drop
every point whose mean distance exceeds `mean + 2·stddev` of the positive
mean distances (zero-distance entries are always kept).  `s` models
`Math.sqrt`. -/
def statisticalOutlierRemoval (s : ℚ → ℚ)
    (points : List ((ℚ × ℚ × ℚ) × (ℚ × ℚ × ℚ))) (k : ℕ) :
    List ((ℚ × ℚ × ℚ) × (ℚ × ℚ × ℚ)) :=
  let count := points.length
  if count < k + 1 then points
  else
    let grid := buildGrid (3/20) (points.map fun pc => pc.1)
    let step := max 1 (count / 50000)
    let avgAt : ℕ → ℚ := fun i =>
      let p := (points.getD i ((0, 0, 0), (0, 0, 0))).1
      let cands := icpCandidates grid (pointKey (3/20) p)
      let dists := cands.filterMap fun ni =>
        if ni = i then none
        else some (s (distSq p ((points.getD ni ((0, 0, 0), (0, 0, 0))).1)))
      let sorted := dists.mergeSort (· ≤ ·)
      let nk := min k sorted.length
      if 0 < nk then (sorted.take nk).sum / (nk : ℚ) else 0
    let avgDists : ℕ → ℚ := fun i => avgAt (i / step * step)
    let idxs := List.range count
    let posIdxs := idxs.filter fun i => decide (0 < avgDists i)
    let validCount := posIdxs.length
    let vdiv : ℚ := if validCount = 0 then 1 else (validCount : ℚ)
    let mean := (posIdxs.map avgDists).sum / vdiv
    let varianceSum := (posIdxs.map fun i => (avgDists i - mean) ^ 2).sum
    let stdDev := s (varianceSum / vdiv)
    let cutoff := mean + 2 * stdDev
    (idxs.filter fun i => decide (avgDists i ≤ cutoff ∨ avgDists i = 0)).map fun i =>
      points.getD i ((0, 0, 0), (0, 0, 0))

/-- `mergePointClouds` of the aligner module.  The TS function mutates its
input array's elements (the ICP pass applies a matrix to each
`meshes[i].geometry` in place for `i ≥ 1`) and then returns
`[mergedMesh, ...meshes]`; the model returns the pair of (returned list,
post-call state of the input meshes).  Inputs of length ≤ 1 are returned
untouched. -/
def mergePointClouds (s : ℚ → ℚ) (meshes : List ProcessedMesh) :
    List ProcessedMesh × List ProcessedMesh :=
  if meshes.length ≤ 1 then (meshes, meshes)
  else
    let allPoints := collectPoints meshes
    let meshes2 := icpPass s meshes
    let voxeled := voxelDownsample allPoints
    let filtered := statisticalOutlierRemoval s voxeled 8
    let m0 := meshes2.headD default
    let mergedMesh : ProcessedMesh :=
      { photoId := "merged-cloud"
        positions := filtered.map fun pc => pc.1
        colors := some (filtered.map fun pc => pc.2)
        textureUrl := m0.textureUrl
        depthMap := m0.depthMap
        width := m0.width
        height := m0.height }
    (mergedMesh :: meshes2, meshes2)

/-- Concrete two-mesh fixture: three collinear points. -/
def fixtureMeshA : ProcessedMesh :=
  { photoId := "a"
    positions := [((0 : ℚ), (0 : ℚ), (0 : ℚ)), (0, 1/10, 0), (0, 1/5, 0)]
    colors := none
    textureUrl := ""
    depthMap := []
    width := 0
    height := 0 }

/-- Concrete two-mesh fixture: the same three points shifted by 1/20 in X,
so ICP pre-registration translates them back onto `fixtureMeshA`. -/
def fixtureMeshB : ProcessedMesh :=
  { photoId := "b"
    positions := [((1 : ℚ)/20, (0 : ℚ), (0 : ℚ)), (1/20, 1/10, 0), (1/20, 1/5, 0)]
    colors := none
    textureUrl := ""
    depthMap := []
    width := 0
    height := 0 }

/-! ## Properties of the numeric primitives -/

theorem jsFloor_eq_floor (q : ℚ) : jsFloor q = ⌊q⌋ := Rat.floor_def.symm

theorem isqrtUp_square (m : ℕ) : ∀ fuel k, k ≤ m → m ≤ k + fuel →
    isqrtUp (m * m) fuel k = m := by
  intro fuel
  induction fuel with
  | zero => intro k h1 h2; simp only [isqrtUp]; omega
  | succ f ih =>
    intro k h1 h2
    by_cases hk : k = m
    · subst hk
      have hgt : ¬ ((k + 1) * (k + 1) ≤ k * k) := by nlinarith
      simp [isqrtUp, hgt]
    · have hlt : k < m := lt_of_le_of_ne h1 hk
      have hle : (k + 1) * (k + 1) ≤ m * m := Nat.mul_le_mul (by omega) (by omega)
      simp only [isqrtUp, if_pos hle]
      exact ih (k + 1) (by omega) (by omega)

theorem isqrt_square (m : ℕ) : isqrt (m * m) = m :=
  isqrtUp_square m (m * m) 0 (Nat.zero_le m) (by nlinarith)

theorem ratSqrt_zero : ratSqrt 0 = 0 := by decide

/-- `ratSqrt` agrees with the real square root on squares of nonnegative
rationals. -/
theorem ratSqrt_mul_self {q : ℚ} (h : 0 ≤ q) : ratSqrt (q * q) = q := by
  have hnum : (q * q).num = q.num * q.num := Rat.mul_self_num q
  have hden : (q * q).den = q.den * q.den := Rat.mul_self_den q
  have hnn : 0 ≤ q.num := Rat.num_nonneg.mpr h
  have hna : (q * q).num.natAbs = q.num.natAbs * q.num.natAbs := by
    rw [hnum, Int.natAbs_mul]
  have hguard : 0 ≤ (q * q).num ∧
      isqrt (q * q).num.natAbs * isqrt (q * q).num.natAbs = (q * q).num.natAbs ∧
      isqrt (q * q).den * isqrt (q * q).den = (q * q).den := by
    refine ⟨by rw [hnum]; positivity, ?_, ?_⟩
    · rw [hna, isqrt_square]
    · rw [hden, isqrt_square]
  simp only [ratSqrt]
  rw [if_pos hguard, hna, hden, isqrt_square, isqrt_square]
  have h2 : (q.num.natAbs : ℚ) = (q.num : ℚ) := by
    lift q.num to ℕ using hnn with n hn
    simp
  rw [h2]
  exact_mod_cast Rat.num_div_den q

/-! ## Fold lemmas for the min/max scan of `normalizeDepth` -/

theorem foldlMin_mem (d : ℚ) (ds : List ℚ) :
    ds.foldl (fun m x => if x < m then x else m) d ∈ d :: ds := by
  induction ds generalizing d with
  | nil => simp
  | cons a as ih =>
    rw [List.foldl_cons]
    rcases List.mem_cons.mp (ih (if a < d then a else d)) with h1 | h1
    · rw [h1]
      by_cases had : a < d <;> simp [had]
    · simp [h1]

theorem foldlMin_le (d : ℚ) (ds : List ℚ) :
    ∀ x ∈ d :: ds, ds.foldl (fun m x => if x < m then x else m) d ≤ x := by
  induction ds generalizing d with
  | nil =>
    intro x hx
    rcases List.mem_cons.mp hx with rfl | hx1
    · simp
    · simp at hx1
  | cons a as ih =>
    intro x hx
    rw [List.foldl_cons]
    have hstep_d : (if a < d then a else d) ≤ d := by
      by_cases had : a < d <;> simp [had, le_of_lt]
    have hstep_a : (if a < d then a else d) ≤ a := by
      by_cases had : a < d <;> simp [had]; exact le_of_not_lt had
    have hhead := ih (if a < d then a else d) _ (List.mem_cons_self _ _)
    rcases List.mem_cons.mp hx with rfl | hx1
    · exact le_trans hhead hstep_d
    · rcases List.mem_cons.mp hx1 with rfl | hx2
      · exact le_trans hhead hstep_a
      · exact ih (if a < d then a else d) x (List.mem_cons.mpr (Or.inr hx2))

theorem foldlMax_mem (d : ℚ) (ds : List ℚ) :
    ds.foldl (fun m x => if m < x then x else m) d ∈ d :: ds := by
  induction ds generalizing d with
  | nil => simp
  | cons a as ih =>
    rw [List.foldl_cons]
    rcases List.mem_cons.mp (ih (if d < a then a else d)) with h1 | h1
    · rw [h1]
      by_cases had : d < a <;> simp [had]
    · simp [h1]

theorem foldlMax_le (d : ℚ) (ds : List ℚ) :
    ∀ x ∈ d :: ds, x ≤ ds.foldl (fun m x => if m < x then x else m) d := by
  induction ds generalizing d with
  | nil =>
    intro x hx
    rcases List.mem_cons.mp hx with rfl | hx1
    · simp
    · simp at hx1
  | cons a as ih =>
    intro x hx
    rw [List.foldl_cons]
    have hstep_d : d ≤ (if d < a then a else d) := by
      by_cases had : d < a <;> simp [had, le_of_lt]
    have hstep_a : a ≤ (if d < a then a else d) := by
      by_cases had : d < a <;> simp [had]; exact le_of_not_lt had
    have hhead := ih (if d < a then a else d) _ (List.mem_cons_self _ _)
    rcases List.mem_cons.mp hx with rfl | hx1
    · exact le_trans hstep_d hhead
    · rcases List.mem_cons.mp hx1 with rfl | hx2
      · exact le_trans hstep_a hhead
      · exact ih (if d < a then a else d) x (List.mem_cons.mpr (Or.inr hx2))

/-! ## C5 — min-max normalization -/

/-- C5: for every non-empty raw depth tensor, the post-processor's min-max
normalization outputs values with minimum 0 and maximum 1 (expressed as:
0 and 1 are attained and every output lies in [0, 1]); in the degenerate
all-equal case the range is treated as 1 and the output is uniformly 0 —
never a division by zero. -/
theorem normalizeDepth_minmax (depthData : List ℚ) (hne : depthData ≠ []) :
    ((∃ a ∈ depthData, ∃ b ∈ depthData, a ≠ b) →
      0 ∈ normalizeDepth depthData ∧ 1 ∈ normalizeDepth depthData ∧
      ∀ x ∈ normalizeDepth depthData, 0 ≤ x ∧ x ≤ 1) ∧
    ((∀ a ∈ depthData, ∀ b ∈ depthData, a = b) →
      normalizeDepth depthData = List.replicate depthData.length 0) := by
  match depthData, hne with
  | d :: ds, _ =>
    set mn := ds.foldl (fun m x => if x < m then x else m) d with hmn
    set mx := ds.foldl (fun m x => if m < x then x else m) d with hmx
    have hmn_mem : mn ∈ d :: ds := foldlMin_mem d ds
    have hmx_mem : mx ∈ d :: ds := foldlMax_mem d ds
    have hmn_le : ∀ x ∈ d :: ds, mn ≤ x := foldlMin_le d ds
    have hle_mx : ∀ x ∈ d :: ds, x ≤ mx := foldlMax_le d ds
    constructor
    · rintro ⟨a, ha, b, hb, hab⟩
      have hlt : mn < mx := by
        rcases lt_or_eq_of_le (le_trans (hmn_le a ha) (hle_mx a ha)) with h | h
        · exact h
        · exfalso
          apply hab
          have ha1 : a = mn := le_antisymm (by rw [h]; exact hle_mx a ha) (hmn_le a ha)
          have hb1 : b = mn := le_antisymm (by rw [h]; exact hle_mx b hb) (hmn_le b hb)
          rw [ha1, hb1]
      have hrange : mx - mn ≠ 0 := by
        intro hc
        exact absurd (by linarith : mx ≤ mn) (not_le.mpr hlt)
      have hpos : 0 < mx - mn := by linarith
      simp only [normalizeDepth, hmn.symm, hmx.symm, if_neg hrange]
      refine ⟨?_, ?_, ?_⟩
      · exact List.mem_map.mpr ⟨mn, hmn_mem, by field_simp⟩
      · exact List.mem_map.mpr ⟨mx, hmx_mem, by field_simp⟩
      · intro x hx
        rcases List.mem_map.mp hx with ⟨y, hy, rfl⟩
        constructor
        · exact div_nonneg (by linarith [hmn_le y hy]) (le_of_lt hpos)
        · rw [div_le_one hpos]
          linarith [hle_mx y hy]
    · intro hconst
      have hall : ∀ x ∈ d :: ds, x = mn := fun x hx => hconst x hx mn hmn_mem
      have hmxmn : mx = mn := hall mx hmx_mem
      have hrange : mx - mn = 0 := by rw [hmxmn]; ring
      simp only [normalizeDepth, hmn.symm, hmx.symm, if_pos hrange]
      apply List.eq_replicate_iff.mpr
      refine ⟨by simp, ?_⟩
      intro b hb
      rcases List.mem_map.mp hb with ⟨y, hy, rfl⟩
      rw [hall y hy]
      ring

/-- Witness for C5 at the non-constant tensor `[0, 1]`. -/
theorem normalizeDepth_minmax_witness :
    (([(0 : ℚ), 1] : List ℚ) ≠ []) ∧
    ((∃ a ∈ ([(0 : ℚ), 1] : List ℚ), ∃ b ∈ ([(0 : ℚ), 1] : List ℚ), a ≠ b) →
      0 ∈ normalizeDepth [(0 : ℚ), 1] ∧ 1 ∈ normalizeDepth [(0 : ℚ), 1] ∧
      ∀ x ∈ normalizeDepth [(0 : ℚ), 1], 0 ≤ x ∧ x ≤ 1) ∧
    ((∀ a ∈ ([(0 : ℚ), 1] : List ℚ), ∀ b ∈ ([(0 : ℚ), 1] : List ℚ), a = b) →
      normalizeDepth [(0 : ℚ), 1] = List.replicate ([(0 : ℚ), 1] : List ℚ).length 0) :=
  ⟨by decide, (normalizeDepth_minmax [0, 1] (by decide)).1,
    (normalizeDepth_minmax [0, 1] (by decide)).2⟩

/-! ## C8 — hole filling -/

/-- Reading the hole-filling output at an in-range index is the per-pixel
computation of the source loop. -/
theorem holeFilling_getD (data : List ℚ) (w h : ℕ) (idx : ℕ) (hidx : idx < data.length) :
    (holeFilling data w h).getD idx 0 =
      if idx < w * h then
        if data.getD idx 0 ≠ 0 then data.getD idx 0
        else
          let vals := holeNeighborVals data w h ((idx % w : ℕ) : ℤ) ((idx / w : ℕ) : ℤ)
          if 0 < vals.length then vals.sum / (vals.length : ℚ) else 0
      else data.getD idx 0 := by
  have hlen : idx < (holeFilling data w h).length := by
    simp [holeFilling, hidx]
  rw [List.getD_eq_getElem _ _ hlen]
  simp [holeFilling, hidx]

/-- Every collected neighbor value is positive when the field is
nonnegative. -/
theorem holeNeighborVals_pos (data : List ℚ) (w h : ℕ) (x y : ℤ)
    (hpos : ∀ d ∈ data, 0 ≤ d) :
    ∀ v ∈ holeNeighborVals data w h x y, 0 < v := by
  intro v hv
  rcases List.mem_filterMap.mp hv with ⟨d, _, hfd⟩
  simp only [holeNeighborVals] at hfd
  split at hfd
  · split at hfd
    · rename_i hnv
      have hv' : v = data.getD ((y + d.1) * (w : ℤ) + (x + d.2)).toNat 0 := by
        injection hfd with h1
        exact h1.symm
      by_cases hk : ((y + d.1) * (w : ℤ) + (x + d.2)).toNat < data.length
      · have hmem : data.getD ((y + d.1) * (w : ℤ) + (x + d.2)).toNat 0 ∈ data := by
          rw [List.getD_eq_getElem _ _ hk]
          exact List.getElem_mem hk
        rw [hv']
        exact lt_of_le_of_ne (hpos _ hmem) (Ne.symm hnv)
      · exfalso
        exact hnv (List.getD_eq_default _ _ (le_of_not_lt hk))
    · exact absurd hfd (by simp)
  · exact absurd hfd (by simp)

/-- C8: in the post-processor's hole-filling step (nonnegative field of
`w·h` samples), a zero pixel with at least one non-zero neighbor in its 5×5
window becomes the mean of those neighbors — hence non-zero; a zero pixel
with no such neighbor becomes 0 (so an all-zero field maps to an all-zero
field); a pixel that is already non-zero is unchanged. -/
theorem holeFilling_spec (data : List ℚ) (w h : ℕ)
    (hlen : data.length = w * h) (hpos : ∀ d ∈ data, 0 ≤ d) :
    (∀ x y : ℕ, x < w → y < h → data.getD (y * w + x) 0 = 0 →
      holeNeighborVals data w h (x : ℤ) (y : ℤ) ≠ [] →
      (holeFilling data w h).getD (y * w + x) 0 =
        (holeNeighborVals data w h (x : ℤ) (y : ℤ)).sum /
          ((holeNeighborVals data w h (x : ℤ) (y : ℤ)).length : ℚ) ∧
      (holeFilling data w h).getD (y * w + x) 0 ≠ 0) ∧
    (∀ x y : ℕ, x < w → y < h → data.getD (y * w + x) 0 = 0 →
      holeNeighborVals data w h (x : ℤ) (y : ℤ) = [] →
      (holeFilling data w h).getD (y * w + x) 0 = 0) ∧
    (data = List.replicate (w * h) 0 → holeFilling data w h = List.replicate (w * h) 0) ∧
    (∀ idx : ℕ, idx < w * h → data.getD idx 0 ≠ 0 →
      (holeFilling data w h).getD idx 0 = data.getD idx 0) := by
  have hidx_lt : ∀ x y : ℕ, x < w → y < h → y * w + x < w * h := by
    intro x y hx hy
    calc y * w + x < y * w + w := by omega
    _ = (y + 1) * w := by ring
    _ ≤ h * w := Nat.mul_le_mul_right w (by omega)
    _ = w * h := Nat.mul_comm h w
  have hmod : ∀ x y : ℕ, x < w → (y * w + x) % w = x := by
    intro x y hx
    rw [Nat.add_comm, Nat.add_mul_mod_self_right]
    exact Nat.mod_eq_of_lt hx
  have hdiv : ∀ x y : ℕ, x < w → (y * w + x) / w = y := by
    intro x y hx
    have hw : 0 < w := by omega
    rw [Nat.add_comm, Nat.add_mul_div_right _ _ hw, Nat.div_eq_of_lt hx]
    omega
  refine ⟨?_, ?_, ?_, ?_⟩
  · intro x y hx hy hzero hne
    have hi := hidx_lt x y hx hy
    have hread := holeFilling_getD data w h (y * w + x) (by omega)
    rw [hmod x y hx, hdiv x y hx] at hread
    rw [hread, if_pos hi, if_neg (by simpa using hzero)]
    have hlen_pos : 0 < (holeNeighborVals data w h (x : ℤ) (y : ℤ)).length :=
      List.length_pos.mpr hne
    refine ⟨by simp [hlen_pos], ?_⟩
    simp only [hlen_pos, if_pos]
    have hsum : 0 < (holeNeighborVals data w h (x : ℤ) (y : ℤ)).sum :=
      List.sum_pos _ (holeNeighborVals_pos data w h _ _ hpos) hne
    have : 0 < (holeNeighborVals data w h (x : ℤ) (y : ℤ)).sum /
        ((holeNeighborVals data w h (x : ℤ) (y : ℤ)).length : ℚ) :=
      div_pos hsum (by exact_mod_cast hlen_pos)
    exact ne_of_gt this
  · intro x y hx hy hzero hnil
    have hi := hidx_lt x y hx hy
    have hread := holeFilling_getD data w h (y * w + x) (by omega)
    rw [hmod x y hx, hdiv x y hx] at hread
    rw [hread, if_pos hi, if_neg (by simpa using hzero), hnil]
    simp
  · intro hall
    have hget : ∀ k : ℕ, data.getD k 0 = 0 := by
      intro k
      rw [hall]
      by_cases hk : k < w * h
      · rw [List.getD_eq_getElem _ _ (by simpa using hk)]
        simp
      · exact List.getD_eq_default _ _ (by simpa using le_of_not_lt hk)
    have hnbr : ∀ x y : ℤ, holeNeighborVals data w h x y = [] := by
      intro x y
      rw [holeNeighborVals, List.filterMap_eq_nil_iff]
      intro d _
      simp only
      split
      · rw [if_neg (by rw [hget]; simp)]
      · rfl
    apply List.ext_getElem
    · simp [holeFilling, hlen]
    · intro n h1 h2
      have h3 : n < data.length := by simpa [holeFilling] using h1
      rw [← List.getD_eq_getElem _ 0 h1, holeFilling_getD data w h n h3]
      rw [if_pos (by omega : n < w * h), if_neg (by rw [hget]; simp), hnbr]
      simp
  · intro idx hidx hnz
    have hread := holeFilling_getD data w h idx (by omega)
    rw [hread, if_pos hidx, if_pos hnz]

/-- Witness for C8 at the 2×1 field `[0, 1/2]`: the zero pixel at `(0,0)`
has the non-zero neighbor `1/2` in its window and the non-zero pixel is
unchanged. -/
theorem holeFilling_spec_witness :
    (([(0 : ℚ), 1/2] : List ℚ).length = 2 * 1 ∧ ∀ d ∈ ([(0 : ℚ), 1/2] : List ℚ), 0 ≤ d) ∧
    ((∀ x y : ℕ, x < 2 → y < 1 → ([(0 : ℚ), 1/2] : List ℚ).getD (y * 2 + x) 0 = 0 →
      holeNeighborVals [(0 : ℚ), 1/2] 2 1 (x : ℤ) (y : ℤ) ≠ [] →
      (holeFilling [(0 : ℚ), 1/2] 2 1).getD (y * 2 + x) 0 =
        (holeNeighborVals [(0 : ℚ), 1/2] 2 1 (x : ℤ) (y : ℤ)).sum /
          ((holeNeighborVals [(0 : ℚ), 1/2] 2 1 (x : ℤ) (y : ℤ)).length : ℚ) ∧
      (holeFilling [(0 : ℚ), 1/2] 2 1).getD (y * 2 + x) 0 ≠ 0) ∧
    (∀ x y : ℕ, x < 2 → y < 1 → ([(0 : ℚ), 1/2] : List ℚ).getD (y * 2 + x) 0 = 0 →
      holeNeighborVals [(0 : ℚ), 1/2] 2 1 (x : ℤ) (y : ℤ) = [] →
      (holeFilling [(0 : ℚ), 1/2] 2 1).getD (y * 2 + x) 0 = 0) ∧
    (([(0 : ℚ), 1/2] : List ℚ) = List.replicate (2 * 1) 0 →
      holeFilling [(0 : ℚ), 1/2] 2 1 = List.replicate (2 * 1) 0) ∧
    (∀ idx : ℕ, idx < 2 * 1 → ([(0 : ℚ), 1/2] : List ℚ).getD idx 0 ≠ 0 →
      (holeFilling [(0 : ℚ), 1/2] 2 1).getD idx 0 = ([(0 : ℚ), 1/2] : List ℚ).getD idx 0)) :=
  ⟨⟨by decide, by decide⟩, holeFilling_spec [(0 : ℚ), 1/2] 2 1 (by decide) (by decide)⟩

/-! ## C9 and C2 — histogram overlap -/

theorem sum_map_addQ {α : Type} (l : List α) (f g : α → ℚ) :
    (l.map fun a => f a + g a).sum = (l.map f).sum + (l.map g).sum := by
  induction l with
  | nil => simp
  | cons a as ih => simp [ih]; ring

theorem sum_map_divQ {α : Type} (l : List α) (f : α → ℚ) (c : ℚ) :
    (l.map fun a => f a / c).sum = (l.map f).sum / c := by
  induction l with
  | nil => simp
  | cons a as ih => simp [ih]; ring

theorem sum_ite_hit (k : ℤ) : ∀ n : ℕ, 0 ≤ k → k < n →
    ((List.range n).map fun (i : ℕ) => if k = (i : ℤ) then (1 : ℚ) else 0).sum = 1 := by
  intro n
  induction n with
  | zero => intro h1 h2; omega
  | succ m ih =>
    intro h1 h2
    rw [List.range_succ, List.map_append, List.sum_append]
    by_cases hk : k < m
    · rw [ih h1 hk]
      have hne : k ≠ (m : ℤ) := by omega
      simp [hne]
    · have hk2 : k = (m : ℤ) := by omega
      have hz : ((List.range m).map fun (i : ℕ) => if k = (i : ℤ) then (1 : ℚ) else 0).sum = 0 := by
        apply List.sum_eq_zero
        intro x hx
        rcases List.mem_map.mp hx with ⟨i, hi, rfl⟩
        have : k ≠ (i : ℤ) := by
          have := List.mem_range.mp hi
          omega
        simp [this]
      rw [hz]
      simp [hk2]

/-- Every sample of a [0,1] field lands in exactly one of the 32 bins, so
the bin counts sum to the sample count. -/
theorem hist_partition (depth : List ℚ) (hb : ∀ d ∈ depth, 0 ≤ d ∧ d ≤ 1) :
    ((List.range 32).map fun i => depthHistogram depth i).sum = (depth.length : ℚ) := by
  induction depth with
  | nil => simp [depthHistogram]
  | cons d ds ih =>
    have hbin_lo : 0 ≤ depthBin d := by
      have h1 := (hb d (List.mem_cons_self d ds)).1
      have h2 : (0 : ℤ) ≤ ⌊d * 32⌋ := Int.floor_nonneg.mpr (by positivity)
      rw [depthBin, jsFloor_eq_floor]
      omega
    have hbin_hi : depthBin d < 32 := by
      rw [depthBin]
      omega
    have hsplit : ∀ i : ℕ, depthHistogram (d :: ds) i =
        depthHistogram ds i + if depthBin d = (i : ℤ) then (1 : ℚ) else 0 := by
      intro i
      simp only [depthHistogram, List.countP_cons]
      push_cast
      by_cases hdi : depthBin d = (i : ℤ) <;> simp [hdi]
    calc ((List.range 32).map fun i => depthHistogram (d :: ds) i).sum
        = ((List.range 32).map fun (i : ℕ) =>
            depthHistogram ds i + if depthBin d = (i : ℤ) then (1 : ℚ) else 0).sum := by
          apply congrArg List.sum
          exact List.map_congr_left fun i _ => hsplit i
      _ = ((List.range 32).map fun i => depthHistogram ds i).sum +
          ((List.range 32).map fun (i : ℕ) => if depthBin d = (i : ℤ) then (1 : ℚ) else 0).sum :=
          sum_map_addQ _ _ _
      _ = (ds.length : ℚ) + 1 := by
          rw [ih (fun x hx => hb x (List.mem_cons.mpr (Or.inr hx))),
            sum_ite_hit (depthBin d) 32 hbin_lo (by exact_mod_cast hbin_hi)]
      _ = ((d :: ds).length : ℚ) := by rw [List.length_cons]; push_cast; ring

/-- C9: `computeDepthOverlap` is symmetric in its two fields, and the
overlap of a non-empty [0,1] field with itself is exactly 1 (the
Bhattacharyya coefficient of a normalized histogram with itself sums the
probabilities).  `s` models `Math.sqrt`; self-overlap uses only that `s`
takes squares of nonnegative rationals to their roots. -/
theorem computeDepthOverlap_symm_self (s : ℚ → ℚ) (depthA depthB : List ℚ) :
    computeDepthOverlap s depthA depthB = computeDepthOverlap s depthB depthA ∧
    (depthA ≠ [] → (∀ d ∈ depthA, 0 ≤ d ∧ d ≤ 1) →
      (∀ q : ℚ, 0 ≤ q → s (q * q) = q) →
      computeDepthOverlap s depthA depthA = 1) := by
  constructor
  · simp only [computeDepthOverlap]
    apply congrArg List.sum
    apply List.map_congr_left
    intro i _
    rw [mul_comm]
  · intro hne hb hs
    have hlen : depthA.length ≠ 0 := fun hc => hne (List.length_eq_zero.mp hc)
    have hn : (depthA.length : ℚ) ≠ 0 := by exact_mod_cast hlen
    simp only [computeDepthOverlap]
    rw [if_neg hlen]
    have hterm : ∀ i ∈ List.range 32,
        s ((depthHistogram depthA i / (depthA.length : ℚ)) *
           (depthHistogram depthA i / (depthA.length : ℚ))) =
        depthHistogram depthA i / (depthA.length : ℚ) := by
      intro i _
      apply hs
      apply div_nonneg _ (by positivity)
      simp [depthHistogram]
    rw [List.map_congr_left hterm]
    rw [sum_map_divQ, hist_partition depthA hb, div_self hn]

/-- Witness for C9 at the field `[1/2]` with `s = ratSqrt`. -/
theorem computeDepthOverlap_symm_self_witness :
    (computeDepthOverlap ratSqrt [(1 : ℚ)/2] [(9 : ℚ)/10] =
      computeDepthOverlap ratSqrt [(9 : ℚ)/10] [(1 : ℚ)/2]) ∧
    computeDepthOverlap ratSqrt [(1 : ℚ)/2] [(1 : ℚ)/2] = 1 :=
  ⟨(computeDepthOverlap_symm_self ratSqrt [(1 : ℚ)/2] [(9 : ℚ)/10]).1,
   (computeDepthOverlap_symm_self ratSqrt [(1 : ℚ)/2] []).2 (by decide) (by decide)
     fun q hq => ratSqrt_mul_self hq⟩

/-- C2 counterexample: the two constant 4×4 fields (all 0.5 and all 0.9)
land in distinct histogram bins, and `computeDepthOverlap` returns EXACTLY
zero — not a non-zero value. -/
theorem computeDepthOverlap_const_fields_zero :
    computeDepthOverlap ratSqrt (List.replicate 16 ((1 : ℚ)/2))
      (List.replicate 16 ((9 : ℚ)/10)) = 0 := by
  decide

theorem countP_replicateQ (p : ℚ → Bool) (n : ℕ) (a : ℚ) :
    (List.replicate n a).countP p = if p a then n else 0 := by
  induction n with
  | zero => simp
  | succ m ih =>
    rw [List.replicate_succ, List.countP_cons, ih]
    by_cases hp : p a <;> simp [hp]

/-- C2 (amended): for the two constant 4×4 fields, `computeDepthOverlap`
returns a low value — exactly 0: the fields occupy the distinct histogram
bins 16 and 28, so every bin product (and with it the Bhattacharyya sum)
vanishes.  `s` models `Math.sqrt` (only `s 0 = 0` is used). -/
theorem computeDepthOverlap_const_fields (s : ℚ → ℚ) (hs0 : s 0 = 0) :
    computeDepthOverlap s (List.replicate 16 ((1 : ℚ)/2))
      (List.replicate 16 ((9 : ℚ)/10)) = 0 := by
  simp only [computeDepthOverlap]
  apply List.sum_eq_zero
  intro x hx
  rcases List.mem_map.mp hx with ⟨i, _, rfl⟩
  have hA : ∀ j : ℕ, depthHistogram (List.replicate 16 ((1 : ℚ)/2)) j =
      if depthBin ((1 : ℚ)/2) = (j : ℤ) then (16 : ℚ) else 0 := by
    intro j
    rw [depthHistogram, countP_replicateQ]
    by_cases hj : depthBin ((1 : ℚ)/2) = (j : ℤ) <;> simp [hj]
  have hB : ∀ j : ℕ, depthHistogram (List.replicate 16 ((9 : ℚ)/10)) j =
      if depthBin ((9 : ℚ)/10) = (j : ℤ) then (16 : ℚ) else 0 := by
    intro j
    rw [depthHistogram, countP_replicateQ]
    by_cases hj : depthBin ((9 : ℚ)/10) = (j : ℤ) <;> simp [hj]
  have hbinA : depthBin ((1 : ℚ)/2) = 16 := by decide
  have hbinB : depthBin ((9 : ℚ)/10) = 28 := by decide
  by_cases h16 : (i : ℤ) = 16
  · have hBz : depthHistogram (List.replicate 16 ((9 : ℚ)/10)) i = 0 := by
      rw [hB i, if_neg (by omega)]
    rw [hBz]
    simpa using hs0
  · have hAz : depthHistogram (List.replicate 16 ((1 : ℚ)/2)) i = 0 := by
      rw [hA i, if_neg (by omega)]
    rw [hAz]
    simpa using hs0

/-- Witness for C2 (amended) with `s = ratSqrt`. -/
theorem computeDepthOverlap_const_fields_witness :
    ratSqrt 0 = 0 ∧
    computeDepthOverlap ratSqrt (List.replicate 16 ((1 : ℚ)/2))
      (List.replicate 16 ((9 : ℚ)/10)) = 0 :=
  ⟨ratSqrt_zero, computeDepthOverlap_const_fields ratSqrt ratSqrt_zero⟩

/-! ## C6 — Taubin smoothing of a flat plane -/

theorem foldl_nbrStep_lt (n i : ℕ) : ∀ (tris : List (ℕ × ℕ × ℕ)) (acc : Finset ℕ),
    (∀ t ∈ tris, t.1 < n ∧ t.2.1 < n ∧ t.2.2 < n) → (∀ j ∈ acc, j < n) →
    ∀ j ∈ tris.foldl (nbrStep i) acc, j < n := by
  intro tris
  induction tris with
  | nil => intro acc _ hacc j hj; exact hacc j (by simpa using hj)
  | cons t ts ih =>
    intro acc htris hacc j hj
    rw [List.foldl_cons] at hj
    refine ih _ (fun u hu => htris u (List.mem_cons.mpr (Or.inr hu))) ?_ j hj
    intro j2 hj2
    rcases htris t (List.mem_cons_self t ts) with ⟨h1, h2, h3⟩
    unfold nbrStep at hj2
    split at hj2
    · rcases Finset.mem_union.mp hj2 with h | h
      · exact hacc j2 h
      · rcases Finset.mem_insert.mp h with rfl | h
        · exact h2
        · rw [Finset.mem_singleton.mp h]; exact h3
    · split at hj2
      · rcases Finset.mem_union.mp hj2 with h | h
        · exact hacc j2 h
        · rcases Finset.mem_insert.mp h with rfl | h
          · exact h1
          · rw [Finset.mem_singleton.mp h]; exact h3
      · split at hj2
        · rcases Finset.mem_union.mp hj2 with h | h
          · exact hacc j2 h
          · rcases Finset.mem_insert.mp h with rfl | h
            · exact h1
            · rw [Finset.mem_singleton.mp h]; exact h2
        · exact hacc j2 hj2

theorem vertexNeighbors_lt (tris : List (ℕ × ℕ × ℕ)) (n : ℕ)
    (hvalid : ∀ t ∈ tris, t.1 < n ∧ t.2.1 < n ∧ t.2.2 < n) (i : ℕ) :
    ∀ j ∈ vertexNeighbors tris i, j < n :=
  foldl_nbrStep_lt n i tris ∅ hvalid (by simp)

/-- A flat Z channel is a fixed point of a single Taubin pass (any factor),
and each pass preserves the channel length. -/
theorem taubinPass_flat (factor c : ℚ) (tris : List (ℕ × ℕ × ℕ)) (zs : List ℚ) (n : ℕ)
    (hlen : zs.length = n)
    (hvalid : ∀ t ∈ tris, t.1 < n ∧ t.2.1 < n ∧ t.2.2 < n)
    (hflat : ∀ z ∈ zs, z = c) :
    (taubinPass factor tris zs).length = n ∧ ∀ z ∈ taubinPass factor tris zs, z = c := by
  have hget : ∀ j, j < n → zs.getD j 0 = c := by
    intro j hj
    rw [List.getD_eq_getElem _ _ (by omega)]
    exact hflat _ (List.getElem_mem _)
  constructor
  · simp [taubinPass, hlen]
  · intro z hz
    rcases List.mem_map.mp hz with ⟨i, hi, rfl⟩
    have hi_lt : i < n := hlen ▸ List.mem_range.mp hi
    simp only
    by_cases hcard : (vertexNeighbors tris i).card = 0
    · rw [if_pos hcard]
      exact hget i hi_lt
    · rw [if_neg hcard]
      have hcq : ((vertexNeighbors tris i).card : ℚ) ≠ 0 := by exact_mod_cast hcard
      have hsum : ((vertexNeighbors tris i).sum fun j => zs.getD j 0) =
          ((vertexNeighbors tris i).card : ℚ) * c := by
        rw [Finset.sum_congr rfl fun j hj => hget j (vertexNeighbors_lt tris n hvalid i j hj)]
        rw [Finset.sum_const, nsmul_eq_mul]
      rw [hsum, hget i hi_lt]
      field_simp

theorem taubinIterate_flat (tris : List (ℕ × ℕ × ℕ)) (c : ℚ) (n : ℕ)
    (hvalid : ∀ t ∈ tris, t.1 < n ∧ t.2.1 < n ∧ t.2.2 < n) :
    ∀ (k : ℕ) (zs : List ℚ), zs.length = n → (∀ z ∈ zs, z = c) →
      (taubinIterate tris k zs).length = n ∧ ∀ z ∈ taubinIterate tris k zs, z = c := by
  intro k
  induction k with
  | zero => intro zs h1 h2; exact ⟨h1, h2⟩
  | succ m ih =>
    intro zs h1 h2
    rw [taubinIterate]
    have p1 := taubinPass_flat (1/2) c tris zs n h1 hvalid h2
    have p2 := taubinPass_flat (-53/100) c tris _ n p1.1 hvalid p1.2
    exact ih _ p2.1 p2.2

/-- C6: `smoothMesh` leaves a flat plane (all vertices sharing one Z value)
unchanged in Z for every iteration count — the alternating λ = 0.5 and
μ = −0.53 Taubin passes fix it — and X/Y coordinates are untouched for all
inputs (only Z is rewritten).  The index validity hypothesis states that
the index buffer references existing vertices, as every geometry the
pipeline builds does. -/
theorem smoothMesh_flat_plane (g : PlaneGeo) (iterations : ℕ) :
    (∀ c : ℚ,
      (∀ t ∈ g.triangles, t.1 < g.positions.length ∧ t.2.1 < g.positions.length ∧
        t.2.2 < g.positions.length) →
      (∀ p ∈ g.positions, p.2.2 = c) →
      ∀ p ∈ (smoothMesh g iterations).positions, p.2.2 = c) ∧
    (smoothMesh g iterations).positions.map (fun p => (p.1, p.2.1)) =
      g.positions.map fun p => (p.1, p.2.1) := by
  constructor
  · intro c hvalid hflat p hp
    simp only [smoothMesh] at hp
    rcases List.mem_map.mp hp with ⟨i, hi, rfl⟩
    have hi_lt : i < g.positions.length := List.mem_range.mp hi
    have hz0 : ∀ z ∈ g.positions.map fun p => p.2.2, z = c := by
      intro z hz
      rcases List.mem_map.mp hz with ⟨q, hq, rfl⟩
      exact hflat q hq
    have hres := taubinIterate_flat g.triangles c g.positions.length hvalid iterations
      (g.positions.map fun p => p.2.2) (by simp) hz0
    simp only
    rw [List.getD_eq_getElem _ _ (by omega : i < (taubinIterate g.triangles iterations
      (g.positions.map fun p => p.2.2)).length)]
    exact hres.2 _ (List.getElem_mem _)
  · apply List.ext_getElem
    · simp [smoothMesh]
    · intro i h1 h2
      have hi : i < g.positions.length := by simpa using h2
      simp [smoothMesh, List.getElem?_eq_getElem hi]

/-- Witness for C6: a flat 3-vertex one-triangle mesh at Z = 5 smoothed for
2 iterations. -/
theorem smoothMesh_flat_plane_witness :
    (∀ p ∈ (smoothMesh ⟨[((0 : ℚ), (0 : ℚ), (5 : ℚ)), (1, 0, 5), (0, 1, 5)],
      [(0, 1, 2)], [], 4, 4⟩ 2).positions, p.2.2 = 5) ∧
    (smoothMesh ⟨[((0 : ℚ), (0 : ℚ), (5 : ℚ)), (1, 0, 5), (0, 1, 5)],
      [(0, 1, 2)], [], 4, 4⟩ 2).positions.map (fun p => (p.1, p.2.1)) =
      ([((0 : ℚ), (0 : ℚ), (5 : ℚ)), (1, 0, 5), (0, 1, 5)] :
        List (ℚ × ℚ × ℚ)).map (fun p => (p.1, p.2.1)) :=
  ⟨(smoothMesh_flat_plane _ 2).1 5 (by decide) (by decide),
   (smoothMesh_flat_plane _ 2).2⟩

/-! ## C1 — vertex-count invariant and index-buffer bound -/

theorem planePositions_length (w h : ℚ) (gx gy : ℕ) :
    (planePositions w h gx gy).length = (gy + 1) * (gx + 1) := by
  simp [planePositions]

theorem length_flatMap_const {α β : Type} (l : List α) (f : α → List β) (k : ℕ)
    (hf : ∀ a ∈ l, (f a).length = k) : (l.flatMap f).length = l.length * k := by
  induction l with
  | nil => simp
  | cons a as ih =>
    rw [List.flatMap_cons, List.length_append, hf a (List.mem_cons_self a as),
      ih fun x hx => hf x (List.mem_cons.mpr (Or.inr hx)), List.length_cons]
    ring

theorem planeTriangles_length (gx gy : ℕ) :
    (planeTriangles gx gy).length = gy * gx * 2 := by
  have h1 : (planeTriangles gx gy).length =
      (List.range gy).length * ((List.range gx).length * 2) := by
    apply length_flatMap_const
    intro iy _
    apply length_flatMap_const
    intro ix _
    rfl
  rw [h1, List.length_range, List.length_range]
  ring

theorem outlierClamp_length (s : ℚ → ℚ) (pos : List (ℚ × ℚ × ℚ)) :
    (outlierClamp s pos).length = pos.length := by
  simp [outlierClamp]

/-- C1: for every depth map, `generateDepthMesh` (with default-derived
segment counts `segX = min(w,800)`, `segY = min(h,800)`) returns exactly
`(segX+1)·(segY+1)` vertices regardless of the stretch-removal, outlier and
perspective options; the index buffer has at most `segX·segY·6` entries
(counted as flat entries, three per stored triangle), and strictly fewer
whenever stretch removal or edge-margin culling discarded at least one
triangle of the initial grid. -/
theorem generateDepthMesh_buffer_sizes (s tanD : ℚ → ℚ) (depthMap : List ℚ)
    (width height : ℕ) (depthScale stretchThreshold fov : ℚ)
    (outlierRemoval perspective stretchRemoval : Bool) :
    (generateDepthMesh s tanD depthMap width height depthScale none none
        outlierRemoval perspective stretchRemoval stretchThreshold fov).positions.length =
      (min width 800 + 1) * (min height 800 + 1) ∧
    3 * (generateDepthMesh s tanD depthMap width height depthScale none none
        outlierRemoval perspective stretchRemoval stretchThreshold fov).triangles.length ≤
      min width 800 * min height 800 * 6 ∧
    ∀ t ∈ planeTriangles (min width 800) (min height 800),
      t ∉ (generateDepthMesh s tanD depthMap width height depthScale none none
        outlierRemoval perspective stretchRemoval stretchThreshold fov).triangles →
      3 * (generateDepthMesh s tanD depthMap width height depthScale none none
        outlierRemoval perspective stretchRemoval stretchThreshold fov).triangles.length <
      min width 800 * min height 800 * 6 := by
  simp only [generateDepthMesh, Option.getD_none]
  refine ⟨?_, ?_, ?_⟩
  · by_cases ho : outlierRemoval <;>
      simp [ho, outlierClamp_length, planePositions_length, Nat.mul_comm]
  · have hmain : (if stretchRemoval then
        removeStretchedFaces
          ((planePositions ((width : ℚ) / (height : ℚ) * 4) 4 (min width 800) (min height 800)).map
            (vertexZ depthMap width height depthScale ((width : ℚ) / (height : ℚ) * 4) 4
              perspective (tanD fov))) stretchThreshold
          (planeTriangles (min width 800) (min height 800))
        else planeTriangles (min width 800) (min height 800)).length ≤
        (planeTriangles (min width 800) (min height 800)).length := by
      by_cases hsf : stretchRemoval
      · simp only [hsf, if_pos]
        exact List.length_filter_le _ _
      · simp [hsf]
    have h2 : (cullEdgeMargin
        ((planePositions ((width : ℚ) / (height : ℚ) * 4) 4 (min width 800) (min height 800)).map
          (vertexZ depthMap width height depthScale ((width : ℚ) / (height : ℚ) * 4) 4
            perspective (tanD fov)))
        ((width : ℚ) / (height : ℚ) * 4) 4 (3/100)
        (if stretchRemoval then
          removeStretchedFaces
            ((planePositions ((width : ℚ) / (height : ℚ) * 4) 4 (min width 800) (min height 800)).map
              (vertexZ depthMap width height depthScale ((width : ℚ) / (height : ℚ) * 4) 4
                perspective (tanD fov))) stretchThreshold
            (planeTriangles (min width 800) (min height 800))
          else planeTriangles (min width 800) (min height 800))).length ≤
        (planeTriangles (min width 800) (min height 800)).length :=
      le_trans (List.length_filter_le _ _) hmain
    have h3 := planeTriangles_length (min width 800) (min height 800)
    have h4 : min height 800 * min width 800 * 2 * 3 = min width 800 * min height 800 * 6 := by
      ring
    omega
  · intro t ht hnotin
    have h3 := planeTriangles_length (min width 800) (min height 800)
    have h4 : min height 800 * min width 800 * 2 * 3 = min width 800 * min height 800 * 6 := by
      ring
    have hlt : (cullEdgeMargin
        ((planePositions ((width : ℚ) / (height : ℚ) * 4) 4 (min width 800) (min height 800)).map
          (vertexZ depthMap width height depthScale ((width : ℚ) / (height : ℚ) * 4) 4
            perspective (tanD fov)))
        ((width : ℚ) / (height : ℚ) * 4) 4 (3/100)
        (if stretchRemoval then
          removeStretchedFaces
            ((planePositions ((width : ℚ) / (height : ℚ) * 4) 4 (min width 800) (min height 800)).map
              (vertexZ depthMap width height depthScale ((width : ℚ) / (height : ℚ) * 4) 4
                perspective (tanD fov))) stretchThreshold
            (planeTriangles (min width 800) (min height 800))
          else planeTriangles (min width 800) (min height 800))).length <
        (planeTriangles (min width 800) (min height 800)).length := by
      set pos1 := (planePositions ((width : ℚ) / (height : ℚ) * 4) 4 (min width 800)
        (min height 800)).map
          (vertexZ depthMap width height depthScale ((width : ℚ) / (height : ℚ) * 4) 4
            perspective (tanD fov)) with hpos1
      set tris0 := planeTriangles (min width 800) (min height 800) with htris0
      by_cases hsf : stretchRemoval
      · simp only [hsf, if_pos] at hnotin ⊢
        by_cases hkeep : decide (faceNotStretched pos1 stretchThreshold t) = true
        · have htmem : t ∈ removeStretchedFaces pos1 stretchThreshold tris0 :=
            List.mem_filter.mpr ⟨ht, hkeep⟩
          have hq : ¬ (decide (¬ isInMargin pos1 ((width : ℚ) / (height : ℚ) * 4) 4 (3/100) t.1 ∧
              ¬ isInMargin pos1 ((width : ℚ) / (height : ℚ) * 4) 4 (3/100) t.2.1 ∧
              ¬ isInMargin pos1 ((width : ℚ) / (height : ℚ) * 4) 4 (3/100) t.2.2) = true) := by
            intro hq1
            exact hnotin (List.mem_filter.mpr ⟨htmem, hq1⟩)
          calc (cullEdgeMargin pos1 ((width : ℚ) / (height : ℚ) * 4) 4 (3/100)
                (removeStretchedFaces pos1 stretchThreshold tris0)).length
              < (removeStretchedFaces pos1 stretchThreshold tris0).length :=
                List.length_filter_lt_length_iff_exists.mpr ⟨t, htmem, hq⟩
            _ ≤ tris0.length := List.length_filter_le _ _
        · calc (cullEdgeMargin pos1 ((width : ℚ) / (height : ℚ) * 4) 4 (3/100)
                (removeStretchedFaces pos1 stretchThreshold tris0)).length
              ≤ (removeStretchedFaces pos1 stretchThreshold tris0).length :=
                List.length_filter_le _ _
            _ < tris0.length :=
                List.length_filter_lt_length_iff_exists.mpr ⟨t, ht, hkeep⟩
      · simp only [hsf, if_neg, Bool.false_eq_true, not_false_eq_true] at hnotin ⊢
        have hq : ¬ (decide (¬ isInMargin pos1 ((width : ℚ) / (height : ℚ) * 4) 4 (3/100) t.1 ∧
            ¬ isInMargin pos1 ((width : ℚ) / (height : ℚ) * 4) 4 (3/100) t.2.1 ∧
            ¬ isInMargin pos1 ((width : ℚ) / (height : ℚ) * 4) 4 (3/100) t.2.2) = true) := by
          intro hq1
          exact hnotin (List.mem_filter.mpr ⟨ht, hq1⟩)
        exact List.length_filter_lt_length_iff_exists.mpr ⟨t, ht, hq⟩
    omega

/-! ## C4 — uniform depth field synthesizes to constant Z -/

theorem foldl_count_flat (c : ℚ) (hc : 0 < c) :
    ∀ (pos : List (ℚ × ℚ × ℚ)) (n : ℕ), (∀ p ∈ pos, p.2.2 = c) →
    pos.foldl (fun acc p => if 0 < p.2.2 then acc + 1 else acc) n = n + pos.length := by
  intro pos
  induction pos with
  | nil => intro n _; simp
  | cons q qs ih =>
    intro n hflat
    rw [List.foldl_cons, if_pos (by rw [hflat q (List.mem_cons_self q qs)]; exact hc),
      ih (n + 1) fun x hx => hflat x (List.mem_cons.mpr (Or.inr hx)), List.length_cons]
    omega

theorem foldl_sum_flat (c : ℚ) (hc : 0 < c) :
    ∀ (pos : List (ℚ × ℚ × ℚ)) (a : ℚ), (∀ p ∈ pos, p.2.2 = c) →
    pos.foldl (fun acc p => if 0 < p.2.2 then acc + p.2.2 else acc) a =
      a + (pos.length : ℚ) * c := by
  intro pos
  induction pos with
  | nil => intro a _; simp
  | cons q qs ih =>
    intro a hflat
    have hq := hflat q (List.mem_cons_self q qs)
    rw [List.foldl_cons, if_pos (by rw [hq]; exact hc), hq,
      ih (a + c) fun x hx => hflat x (List.mem_cons.mpr (Or.inr hx)), List.length_cons]
    push_cast
    ring

theorem foldl_var_flat (c : ℚ) (hc : 0 < c) :
    ∀ (pos : List (ℚ × ℚ × ℚ)) (a : ℚ), (∀ p ∈ pos, p.2.2 = c) →
    pos.foldl (fun acc p => if 0 < p.2.2 then acc + (p.2.2 - c) ^ 2 else acc) a = a := by
  intro pos
  induction pos with
  | nil => intro a _; simp
  | cons q qs ih =>
    intro a hflat
    have hq := hflat q (List.mem_cons_self q qs)
    rw [List.foldl_cons, if_pos (by rw [hq]; exact hc), hq]
    rw [show a + (c - c) ^ 2 = a by ring]
    exact ih a fun x hx => hflat x (List.mem_cons.mpr (Or.inr hx))

/-- The outlier clamp is the identity on a constant positive-Z vertex
buffer: the standard deviation is 0, the threshold equals the shared Z, and
nothing exceeds it. -/
theorem outlierClamp_uniform (s : ℚ → ℚ) (hs0 : s 0 = 0) (c : ℚ) (hc : 0 < c)
    (pos : List (ℚ × ℚ × ℚ)) (hflat : ∀ p ∈ pos, p.2.2 = c) :
    outlierClamp s pos = pos := by
  by_cases hnil : pos = []
  · subst hnil
    simp [outlierClamp]
  · have hlen0 : pos.length ≠ 0 := fun hl => hnil (List.length_eq_zero.mp hl)
    have hlenQ : (pos.length : ℚ) ≠ 0 := by exact_mod_cast hlen0
    have hmean : ((0 : ℚ) + (pos.length : ℚ) * c) / (if pos.length = 0 then (1 : ℚ)
        else (pos.length : ℚ)) = c := by
      rw [zero_add, if_neg hlen0, mul_comm (pos.length : ℚ) c, mul_div_assoc,
        div_self hlenQ, mul_one]
    simp only [outlierClamp, foldl_count_flat c hc pos 0 hflat,
      foldl_sum_flat c hc pos 0 hflat, Nat.zero_add, hmean,
      foldl_var_flat c hc pos 0 hflat, zero_div, hs0, mul_zero, add_zero]
    have hid : ∀ p ∈ pos, (if c < p.2.2 then (p.1, p.2.1, c) else p) = p := by
      intro p hp
      rw [if_neg (by rw [hflat p hp]; exact lt_irrefl c)]
    calc pos.map (fun p => if c < p.2.2 then (p.1, p.2.1, c) else p)
        = pos.map id := List.map_congr_left hid
      _ = pos := List.map_id pos

/-- C4: synthesizing a mesh from the uniform 8×8 depth field of value 0.5
with `depthScale = 2` and perspective disabled (remaining options at their
defaults) yields a geometry whose every vertex Z is exactly 1: the outlier
clamp, with zero standard deviation over the uniform positive Zs, clamps
nothing below 1.  `s` models `Math.sqrt` (only `s 0 = 0` is used); `tanD`
models the fov tangent and is irrelevant with perspective off. -/
theorem uniform_mesh_unit_z (s tanD : ℚ → ℚ) (hs0 : s 0 = 0) :
    ∀ p ∈ (generateDepthMesh s tanD (List.replicate 64 ((1 : ℚ)/2)) 8 8 2 none none
      true false true (1/5) 60).positions, p.2.2 = 1 := by
  have hfun : ∀ pw : ℚ, vertexZ (List.replicate 64 ((1 : ℚ)/2)) 8 8 2 pw 4 false (tanD 60)
      = vertexZ (List.replicate 64 ((1 : ℚ)/2)) 8 8 2 pw 4 false 0 :=
    fun pw => funext fun p => rfl
  simp only [generateDepthMesh, Option.getD_none, if_true, hfun]
  have hflat : ∀ p ∈ (planePositions (((8 : ℕ) : ℚ) / ((8 : ℕ) : ℚ) * 4) 4
      (min 8 800) (min 8 800)).map
      (vertexZ (List.replicate 64 ((1 : ℚ)/2)) 8 8 2 (((8 : ℕ) : ℚ) / ((8 : ℕ) : ℚ) * 4) 4
        false 0), p.2.2 = 1 := by decide
  rw [outlierClamp_uniform s hs0 1 one_pos _ hflat]
  exact hflat

/-- Witness for C4 with `s = ratSqrt` (and a vacuous tangent model). -/
theorem uniform_mesh_unit_z_witness :
    ratSqrt 0 = 0 ∧
    ∀ p ∈ (generateDepthMesh ratSqrt (fun _ => 0) (List.replicate 64 ((1 : ℚ)/2)) 8 8 2
      none none true false true (1/5) 60).positions, p.2.2 = 1 :=
  ⟨ratSqrt_zero, uniform_mesh_unit_z ratSqrt (fun _ => 0) ratSqrt_zero⟩

/-! ## C10 — degenerate alignment falls back instead of failing -/

theorem foldl_id {α β : Type} : ∀ (l : List α) (f : β → α → β) (z : β),
    (∀ a ∈ l, ∀ acc, f acc a = acc) → l.foldl f z = z := by
  intro l
  induction l with
  | nil => intro f z _; rfl
  | cons a as ih =>
    intro f z hf
    rw [List.foldl_cons, hf a (List.mem_cons_self a as) z]
    exact ih f z fun x hx acc => hf x (List.mem_cons.mpr (Or.inr hx)) acc

/-- The running-maximum scan only ever holds a score that is one of the
scanned scores (or came from the accumulator), so a uniform bound on the
scores bounds the result. -/
theorem bestCellMatch_le (s : ℚ → ℚ) (a : CellDescriptor) (bound : ℚ) :
    ∀ (featB : List CellDescriptor) (acc : Option (ℚ × CellDescriptor)),
    (∀ b ∈ featB, cellNCC s a b ≤ bound) →
    (∀ pr : ℚ × CellDescriptor, acc = some pr → pr.1 ≤ bound) →
    ∀ pr : ℚ × CellDescriptor, featB.foldl (cellScanStep s a) acc = some pr →
      pr.1 ≤ bound := by
  intro featB
  induction featB with
  | nil => intro acc _ hacc pr hpr; exact hacc pr hpr
  | cons b bs ih =>
    intro acc hb hacc pr hpr
    rw [List.foldl_cons] at hpr
    refine ih _ (fun x hx => hb x (List.mem_cons.mpr (Or.inr hx))) ?_ pr hpr
    intro pr2 hpr2
    have hbb := hb b (List.mem_cons_self b bs)
    unfold cellScanStep at hpr2
    cases acc with
    | none =>
      simp only at hpr2
      injection hpr2 with h1
      rw [← h1]
      exact hbb
    | some pr0 =>
      obtain ⟨bs0, bb0⟩ := pr0
      simp only at hpr2
      split at hpr2
      · injection hpr2 with h1
        rw [← h1]
        exact hbb
      · injection hpr2 with h1
        rw [← h1]
        exact hacc (bs0, bb0) rfl

/-- C10: degenerate alignment never raises.  When no grid-cell pair reaches
cosine similarity above 0.8, `computeFeatureOffset` returns the zero offset
(so alignment falls back to the spacing heuristic alone); and any
`icpAlign` iteration that finds fewer than 3 correspondences breaks the
loop, returning the translation accumulated so far. -/
theorem alignment_degenerate_fallback (s : ℚ → ℚ) (a2p : ℚ → ℚ → ℚ)
    (depthA : List ℚ) (widthA heightA : ℕ) (depthB : List ℚ) (widthB heightB : ℕ)
    (tgt : List (ℚ × ℚ × ℚ)) (grid : List ((ℤ × ℤ × ℤ) × List ℕ))
    (step fuel : ℕ) (tol : ℚ) (src : List (ℚ × ℚ × ℚ)) (cum : ℚ × ℚ × ℚ)
    (hscores : ∀ a ∈ extractGridFeatures a2p depthA widthA heightA,
      ∀ b ∈ extractGridFeatures a2p depthB widthB heightB, cellNCC s a b ≤ 8/10)
    (hfew : (icpCorrespondences tgt grid step src).length < 3) :
    computeFeatureOffset s a2p depthA widthA heightA depthB widthB heightB = (0, 0, 0) ∧
    icpLoop s tgt grid step tol (fuel + 1) src cum = cum := by
  constructor
  · simp only [computeFeatureOffset]
    rw [foldl_id _ _ _ ?hstep]
    · rfl
    case hstep =>
      intro a ha acc
      unfold offsetStep
      cases hbm : bestCellMatch s a (extractGridFeatures a2p depthB widthB heightB) with
      | none => rfl
      | some pr =>
        obtain ⟨sc, bb⟩ := pr
        have hle : sc ≤ 8/10 :=
          bestCellMatch_le s a (8/10) _ none (hscores a ha)
            (fun pr0 hpr0 => absurd hpr0 (by simp)) (sc, bb) hbm
        simp only
        rw [if_neg (not_lt.mpr hle)]
  · rw [icpLoop]
    simp only [if_pos hfew]

/-- Witness for C10: two 1×1 fields whose (empty-interior) cell descriptors
all score 0, and an ICP state whose single subsampled source point is far
from the only target cell, so no correspondence is found and the
accumulated translation (7, 8, 9) is returned. -/
theorem alignment_degenerate_fallback_witness :
    (∀ a ∈ extractGridFeatures (fun _ _ => 0) [(1 : ℚ)/2] 1 1,
      ∀ b ∈ extractGridFeatures (fun _ _ => 0) [(9 : ℚ)/10] 1 1,
        cellNCC ratSqrt a b ≤ 8/10) ∧
    (icpCorrespondences [((0 : ℚ), (0 : ℚ), (0 : ℚ))]
      (buildGrid (1/10) [((0 : ℚ), (0 : ℚ), (0 : ℚ))]) 1
      [((5 : ℚ), (5 : ℚ), (5 : ℚ))]).length < 3 ∧
    (computeFeatureOffset ratSqrt (fun _ _ => 0) [(1 : ℚ)/2] 1 1 [(9 : ℚ)/10] 1 1 =
      (0, 0, 0) ∧
     icpLoop ratSqrt [((0 : ℚ), (0 : ℚ), (0 : ℚ))]
      (buildGrid (1/10) [((0 : ℚ), (0 : ℚ), (0 : ℚ))]) 1 (1/1000) 20
      [((5 : ℚ), (5 : ℚ), (5 : ℚ))] (7, 8, 9) = (7, 8, 9)) :=
  ⟨by decide, by decide,
   alignment_degenerate_fallback ratSqrt (fun _ _ => 0) [(1 : ℚ)/2] 1 1 [(9 : ℚ)/10] 1 1
     [((0 : ℚ), (0 : ℚ), (0 : ℚ))] (buildGrid (1/10) [((0 : ℚ), (0 : ℚ), (0 : ℚ))])
     1 19 (1/1000) [((5 : ℚ), (5 : ℚ), (5 : ℚ))] (7, 8, 9) (by decide) (by decide)⟩

/-! ## C7 — ICP on identical clouds returns the zero translation -/

theorem gridLookup_gridInsert_eq (k : ℤ × ℤ × ℤ) (i : ℕ) :
    ∀ g : List ((ℤ × ℤ × ℤ) × List ℕ),
    gridLookup (gridInsert g k i) k = gridLookup g k ++ [i] := by
  intro g
  induction g with
  | nil => simp [gridInsert, gridLookup]
  | cons kc rest ih =>
    obtain ⟨k0, cell⟩ := kc
    by_cases hk : k0 = k
    · simp [gridInsert, gridLookup, hk]
    · simp [gridInsert, gridLookup, hk, ih]

theorem gridLookup_gridInsert_ne (k k2 : ℤ × ℤ × ℤ) (i : ℕ) (hne : k2 ≠ k) :
    ∀ g : List ((ℤ × ℤ × ℤ) × List ℕ),
    gridLookup (gridInsert g k i) k2 = gridLookup g k2 := by
  have hne2 : ¬ k = k2 := fun h => hne h.symm
  intro g
  induction g with
  | nil => simp [gridInsert, gridLookup, hne2]
  | cons kc rest ih =>
    obtain ⟨k0, cell⟩ := kc
    by_cases hk : k0 = k
    · subst hk
      have h3 : ¬ k0 = k2 := fun h => hne h.symm
      simp [gridInsert, gridLookup, h3]
    · by_cases hk2 : k0 = k2
      · subst hk2
        simp [gridInsert, gridLookup, hk]
      · simp [gridInsert, gridLookup, hk, hk2, ih]

theorem mem_gridLookup_foldl (r : ℚ) (pts : List (ℚ × ℚ × ℚ)) :
    ∀ (idxs : List ℕ) (g : List ((ℤ × ℤ × ℤ) × List ℕ)) (j : ℕ),
    (j ∈ gridLookup g (pointKey r (pts.getD j (0, 0, 0))) ∨ j ∈ idxs) →
    j ∈ gridLookup
      (idxs.foldl (fun g i => gridInsert g (pointKey r (pts.getD i (0, 0, 0))) i) g)
      (pointKey r (pts.getD j (0, 0, 0))) := by
  intro idxs
  induction idxs with
  | nil =>
    intro g j h
    rcases h with h | h
    · exact h
    · simp at h
  | cons i is ih =>
    intro g j h
    rw [List.foldl_cons]
    apply ih
    rcases h with h | h
    · left
      by_cases hk : pointKey r (pts.getD j (0, 0, 0)) = pointKey r (pts.getD i (0, 0, 0))
      · rw [hk, gridLookup_gridInsert_eq]
        exact List.mem_append.mpr (Or.inl (hk ▸ h))
      · rw [gridLookup_gridInsert_ne _ _ _ hk]
        exact h
    · rcases List.mem_cons.mp h with rfl | h2
      · left
        rw [gridLookup_gridInsert_eq]
        exact List.mem_append.mpr (Or.inr (List.mem_singleton.mpr rfl))
      · right
        exact h2

theorem mem_buildGrid_self (r : ℚ) (pts : List (ℚ × ℚ × ℚ)) (j : ℕ)
    (hj : j < pts.length) :
    j ∈ gridLookup (buildGrid r pts) (pointKey r (pts.getD j (0, 0, 0))) :=
  mem_gridLookup_foldl r pts (List.range pts.length) [] j
    (Or.inr (List.mem_range.mpr hj))

theorem mem_icpCandidates_of_lookup (grid : List ((ℤ × ℤ × ℤ) × List ℕ))
    (k : ℤ × ℤ × ℤ) (j : ℕ) (h : j ∈ gridLookup grid k) :
    j ∈ icpCandidates grid k := by
  apply List.mem_flatMap.mpr
  refine ⟨(0, 0, 0), by decide, ?_⟩
  simpa using h

theorem distSq_nonneg (p q : ℚ × ℚ × ℚ) : 0 ≤ distSq p q := by
  unfold distSq
  positivity

theorem distSq_self (p : ℚ × ℚ × ℚ) : distSq p p = 0 := by
  unfold distSq
  ring

theorem distSq_eq_zero (p q : ℚ × ℚ × ℚ) (h : distSq p q = 0) : q = p := by
  unfold distSq at h
  have h1 : (p.1 - q.1) ^ 2 = 0 := by nlinarith [sq_nonneg (p.1 - q.1), sq_nonneg (p.2.1 - q.2.1), sq_nonneg (p.2.2 - q.2.2)]
  have h2 : (p.2.1 - q.2.1) ^ 2 = 0 := by nlinarith [sq_nonneg (p.1 - q.1), sq_nonneg (p.2.1 - q.2.1), sq_nonneg (p.2.2 - q.2.2)]
  have h3 : (p.2.2 - q.2.2) ^ 2 = 0 := by nlinarith [sq_nonneg (p.1 - q.1), sq_nonneg (p.2.1 - q.2.1), sq_nonneg (p.2.2 - q.2.2)]
  have e1 : q.1 = p.1 := by
    have := pow_eq_zero_iff (n := 2) (by omega) |>.mp h1
    linarith [this]
  have e2 : q.2.1 = p.2.1 := by
    have := pow_eq_zero_iff (n := 2) (by omega) |>.mp h2
    linarith [this]
  have e3 : q.2.2 = p.2.2 := by
    have := pow_eq_zero_iff (n := 2) (by omega) |>.mp h3
    linarith [this]
  exact Prod.ext e1 (Prod.ext e2 e3)

/-- The nearest-candidate scan returns a pair holding the true distance of
its index, no larger than the distance of any scanned candidate (or of the
incoming accumulator). -/
theorem bestMatch_min (tgt : List (ℚ × ℚ × ℚ)) (p : ℚ × ℚ × ℚ) :
    ∀ (cands : List ℕ) (acc : Option (ℚ × ℕ)),
    (∀ pr : ℚ × ℕ, acc = some pr → pr.1 = distSq p (tgt.getD pr.2 (0, 0, 0))) →
    ∀ pr : ℚ × ℕ, cands.foldl (nearestStep tgt p) acc = some pr →
      pr.1 = distSq p (tgt.getD pr.2 (0, 0, 0)) ∧
      (∀ pr0 : ℚ × ℕ, acc = some pr0 → pr.1 ≤ pr0.1) ∧
      (∀ c ∈ cands, pr.1 ≤ distSq p (tgt.getD c (0, 0, 0))) := by
  intro cands
  induction cands with
  | nil =>
    intro acc hacc pr hpr
    refine ⟨hacc pr hpr, ?_, by simp⟩
    intro pr0 h0
    rw [List.foldl_nil] at hpr
    rw [h0] at hpr
    injection hpr with h1
    rw [h1]
  | cons c cs ih =>
    intro acc hacc pr hpr
    rw [List.foldl_cons] at hpr
    have hstep_wf : ∀ pr2 : ℚ × ℕ, nearestStep tgt p acc c = some pr2 →
        pr2.1 = distSq p (tgt.getD pr2.2 (0, 0, 0)) := by
      intro pr2 hpr2
      unfold nearestStep at hpr2
      cases acc with
      | none =>
        simp only at hpr2
        injection hpr2 with h1
        rw [← h1]
      | some pr0 =>
        obtain ⟨bd, bi⟩ := pr0
        simp only at hpr2
        split at hpr2
        · injection hpr2 with h1
          rw [← h1]
        · injection hpr2 with h1
          rw [← h1]
          exact hacc (bd, bi) rfl
    rcases ih (nearestStep tgt p acc c) hstep_wf pr hpr with ⟨hwf, hle_acc, hle_cs⟩
    have hsome : ∃ pr2 : ℚ × ℕ, nearestStep tgt p acc c = some pr2 := by
      unfold nearestStep
      cases acc with
      | none => exact ⟨_, rfl⟩
      | some pr0 =>
        obtain ⟨bd, bi⟩ := pr0
        simp only
        split
        · exact ⟨_, rfl⟩
        · exact ⟨_, rfl⟩
    obtain ⟨pr2, hst⟩ := hsome
    refine ⟨hwf, ?_, ?_⟩
    · intro pr0 h0
      have hstep_le : pr2.1 ≤ pr0.1 := by
        unfold nearestStep at hst
        rw [h0] at hst
        simp only at hst
        split at hst
        · rename_i hlt
          injection hst with h1
          rw [← h1]
          exact le_of_lt hlt
        · injection hst with h1
          rw [← h1]
      exact le_trans (hle_acc pr2 hst) hstep_le
    · intro c2 hc2
      rcases List.mem_cons.mp hc2 with rfl | h2
      · have hstep_le : pr2.1 ≤ distSq p (tgt.getD c2 (0, 0, 0)) := by
          unfold nearestStep at hst
          cases acc with
          | none =>
            simp only at hst
            injection hst with h1
            rw [← h1]
          | some pr0 =>
            obtain ⟨bd, bi⟩ := pr0
            simp only at hst
            split at hst
            · injection hst with h1
              rw [← h1]
            · rename_i hlt
              injection hst with h1
              rw [← h1]
              exact le_of_not_lt hlt
        exact le_trans (hle_acc pr2 hst) hstep_le
      · exact hle_cs c2 h2

/-- Running one ICP iteration of a cloud against itself: every accepted
correspondence pairs a point with a point at distance zero, hence with
itself coordinate-wise. -/
theorem icpCorrespondences_self (tgt : List (ℚ × ℚ × ℚ)) (step : ℕ) :
    ∀ pr ∈ icpCorrespondences tgt (buildGrid (1/10) tgt) step tgt, pr.2 = pr.1 := by
  intro pr hpr
  simp only [icpCorrespondences] at hpr
  rcases List.mem_filterMap.mp hpr with ⟨i, hi, hfi⟩
  have hi_lt : i < tgt.length := List.mem_range.mp (List.mem_filter.mp hi).1
  have hself : i ∈ icpCandidates (buildGrid (1/10) tgt)
      (pointKey (1/10) (tgt.getD i (0, 0, 0))) :=
    mem_icpCandidates_of_lookup _ _ _ (mem_buildGrid_self (1/10) tgt i hi_lt)
  cases hbm : bestMatch tgt (tgt.getD i (0, 0, 0))
      (icpCandidates (buildGrid (1/10) tgt) (pointKey (1/10) (tgt.getD i (0, 0, 0)))) with
  | none =>
    rw [hbm] at hfi
    simp at hfi
  | some b =>
    obtain ⟨bd, bi⟩ := b
    rw [hbm] at hfi
    simp only at hfi
    split at hfi
    · injection hfi with h1
      rcases bestMatch_min tgt (tgt.getD i (0, 0, 0)) _ none (by simp) (bd, bi) hbm with
        ⟨hwf, _, hmin⟩
      have hle : bd ≤ 0 := by
        have := hmin i hself
        rwa [distSq_self] at this
      have hwf2 : bd = distSq (tgt.getD i (0, 0, 0)) (tgt.getD bi (0, 0, 0)) := hwf
      have hge : 0 ≤ bd := by
        rw [hwf2]
        exact distSq_nonneg _ _
      have hbd0 : distSq (tgt.getD i (0, 0, 0)) (tgt.getD bi (0, 0, 0)) = 0 := by
        rw [← hwf2]
        exact le_antisymm hle hge
      have hq : tgt.getD bi (0, 0, 0) = tgt.getD i (0, 0, 0) := distSq_eq_zero _ _ hbd0
      rw [← h1, hq]
    · exact absurd hfi (by simp)

theorem icpLoop_self (s : ℚ → ℚ) (tgt : List (ℚ × ℚ × ℚ)) (step : ℕ) (tol : ℚ) :
    ∀ fuel : ℕ, icpLoop s tgt (buildGrid (1/10) tgt) step tol fuel tgt (0, 0, 0) = (0, 0, 0) := by
  intro fuel
  induction fuel with
  | zero => rfl
  | succ f ih =>
    simp only [icpLoop]
    by_cases hfew : (icpCorrespondences tgt (buildGrid (1/10) tgt) step tgt).length < 3
    · rw [if_pos hfew]
    · rw [if_neg hfew]
      have hpair := icpCorrespondences_self tgt step
      have hx : ((icpCorrespondences tgt (buildGrid (1/10) tgt) step tgt).map
            fun c => c.2.1).sum =
          ((icpCorrespondences tgt (buildGrid (1/10) tgt) step tgt).map
            fun c => c.1.1).sum :=
        congrArg List.sum (List.map_congr_left fun c hc => by rw [hpair c hc])
      have hy : ((icpCorrespondences tgt (buildGrid (1/10) tgt) step tgt).map
            fun c => c.2.2.1).sum =
          ((icpCorrespondences tgt (buildGrid (1/10) tgt) step tgt).map
            fun c => c.1.2.1).sum :=
        congrArg List.sum (List.map_congr_left fun c hc => by rw [hpair c hc])
      have hz : ((icpCorrespondences tgt (buildGrid (1/10) tgt) step tgt).map
            fun c => c.2.2.2).sum =
          ((icpCorrespondences tgt (buildGrid (1/10) tgt) step tgt).map
            fun c => c.1.2.2).sum :=
        congrArg List.sum (List.map_congr_left fun c hc => by rw [hpair c hc])
      have heta : (fun p : ℚ × ℚ × ℚ => (p.1, p.2.1, p.2.2)) = id := rfl
      simp only [hx, hy, hz, sub_self, add_zero, heta, List.map_id]
      split
      · rfl
      · exact ih

/-- C7: `icpAlign(P, P)` with the default `maxIterations = 20` and
`tolerance = 0.001` returns the zero translation for every point set `P`:
every subsampled source point finds itself (or a coincident point) at
distance 0, so the centroid delta vanishes in every iteration and the
accumulated translation stays zero.  This holds for every model `s` of
`Math.sqrt`. -/
theorem icpAlign_identical_clouds (s : ℚ → ℚ) (P : List (ℚ × ℚ × ℚ)) :
    icpAlign s P P 20 (1/1000) = (0, 0, 0) := by
  unfold icpAlign
  split
  · rfl
  · exact icpLoop_self s P (max 1 (P.length / 2000)) (1/1000) 20

/-! ## C3 — the fuser returns merged + per-photo meshes, but mutates them -/

theorem translateMesh_zero (m : ProcessedMesh) : translateMesh (0, 0, 0) m = m := by
  have heta : (fun p : ℚ × ℚ × ℚ => (p.1, p.2.1, p.2.2)) = id := rfl
  cases m
  simp [translateMesh, heta]

theorem icpGo_translates (s : ℚ → ℚ) :
    ∀ (rest : List ProcessedMesh) (prev : ProcessedMesh),
    List.Forall₂ (fun a b => ∃ d : ℚ × ℚ × ℚ, b = translateMesh d a) rest
      (icpGo s prev rest) := by
  intro rest
  induction rest with
  | nil => intro prev; exact List.Forall₂.nil
  | cons m ms ih =>
    intro prev
    rw [icpGo]
    exact List.Forall₂.cons ⟨_, rfl⟩ (ih _)

theorem icpPass_head (s : ℚ → ℚ) (meshes : List ProcessedMesh) :
    (icpPass s meshes).head? = meshes.head? := by
  cases meshes <;> rfl

theorem icpPass_translates (s : ℚ → ℚ) (meshes : List ProcessedMesh) :
    List.Forall₂ (fun a b => ∃ d : ℚ × ℚ × ℚ, b = translateMesh d a) meshes
      (icpPass s meshes) := by
  cases meshes with
  | nil => exact List.Forall₂.nil
  | cons m0 rest =>
    rw [icpPass]
    exact List.Forall₂.cons ⟨(0, 0, 0), (translateMesh_zero m0).symm⟩
      (icpGo_translates s rest m0)

theorem icpPass_length (s : ℚ → ℚ) (meshes : List ProcessedMesh) :
    (icpPass s meshes).length = meshes.length :=
  (List.Forall₂.length_eq (icpPass_translates s meshes)).symm

/-- C3 counterexample: the fusion step MUTATES its input meshes — after
`mergePointClouds` on the concrete fixture pair, the post-call state of the
input records differs from the originals (the second mesh's vertex
positions were translated in place by the ICP pre-registration). -/
theorem mergePointClouds_mutates_input :
    (mergePointClouds ratSqrt [fixtureMeshA, fixtureMeshB]).2 ≠
      [fixtureMeshA, fixtureMeshB] := by
  decide

/-- C3 (amended): for two or more input meshes, `mergePointClouds` returns
the merged cloud (photoId "merged-cloud") followed by exactly the
(post-call) per-photo mesh records; the first input mesh is never modified,
but each later mesh's vertex positions are translated in place by its
accumulated ICP translation (all other fields preserved), so the inputs are
NOT consumed read-only. -/
theorem mergePointClouds_returns_translated (s : ℚ → ℚ) (meshes : List ProcessedMesh)
    (h2 : 2 ≤ meshes.length) :
    ((mergePointClouds s meshes).1).length = meshes.length + 1 ∧
    ((mergePointClouds s meshes).1).tail = (mergePointClouds s meshes).2 ∧
    (((mergePointClouds s meshes).1).headD default).photoId = "merged-cloud" ∧
    ((mergePointClouds s meshes).2).head? = meshes.head? ∧
    List.Forall₂ (fun a b => ∃ d : ℚ × ℚ × ℚ, b = translateMesh d a) meshes
      ((mergePointClouds s meshes).2) := by
  have hnle : ¬ meshes.length ≤ 1 := by omega
  simp only [mergePointClouds, if_neg hnle]
  refine ⟨?_, rfl, rfl, icpPass_head s meshes, icpPass_translates s meshes⟩
  simp [icpPass_length]

/-- Witness for C3 (amended) on the concrete fixture pair. -/
theorem mergePointClouds_returns_translated_witness :
    2 ≤ ([fixtureMeshA, fixtureMeshB] : List ProcessedMesh).length ∧
    (((mergePointClouds ratSqrt [fixtureMeshA, fixtureMeshB]).1).length =
        ([fixtureMeshA, fixtureMeshB] : List ProcessedMesh).length + 1 ∧
      ((mergePointClouds ratSqrt [fixtureMeshA, fixtureMeshB]).1).tail =
        (mergePointClouds ratSqrt [fixtureMeshA, fixtureMeshB]).2 ∧
      (((mergePointClouds ratSqrt [fixtureMeshA, fixtureMeshB]).1).headD
          default).photoId = "merged-cloud" ∧
      ((mergePointClouds ratSqrt [fixtureMeshA, fixtureMeshB]).2).head? =
        ([fixtureMeshA, fixtureMeshB] : List ProcessedMesh).head? ∧
      List.Forall₂ (fun a b => ∃ d : ℚ × ℚ × ℚ, b = translateMesh d a)
        [fixtureMeshA, fixtureMeshB]
        ((mergePointClouds ratSqrt [fixtureMeshA, fixtureMeshB]).2)) :=
  ⟨by decide,
   mergePointClouds_returns_translated ratSqrt [fixtureMeshA, fixtureMeshB] (by decide)⟩

end Spec2Proof
